import Mathlib

/-!
Verification development for the Brainfuck JIT compiler in `src/main.cpp`.

The C++ program is shallowly embedded as executable Lean functions:
* the IR (`struct Instruction` and its subclasses) becomes the inductive `Insn`,
  with the `int value` payloads modelled as `Int`;
* `Compiler::compile_program` (the frontend/folder, main.cpp:352-427) becomes
  `buildAux`/`blocksOf`; the C++ `for` loop with inner run-consuming `while`
  loops is modelled with a fuel argument (each iteration consumes at least one
  character, so fuel `code.length + 1` is always sufficient);
* `Compiler::validate_loops` (main.cpp:430-449) becomes `validateAux`;
* the `JIT::Emitter` byte encodings (main.cpp:175-289) become the `e_*`
  functions over `List Nat` byte buffers, with the C++ integer narrowing
  conversions made explicit as `% 256` / `% 2^32`;
* `JIT::Compiler` (main.cpp:291-345) becomes the `compile_*` functions;
* `JitCompiler` (main.cpp:458-582) becomes `blockEmitter`, `innerScan`,
  `outerScan`, `emit_jumps` and `jitCompileCode`. The C++ `emit_jumps`
  walks the emitter vector by index (`emitters[j + 1]` is block `j`'s buffer,
  index 0 being the prologue emitter, which `emit_jumps` never touches); the
  Lean model pairs each block with its buffer and walks the list structurally,
  returning the remaining suffix where the C++ returns the index `destination`.
-/

namespace Spec2Proof

/-! ### IR: `struct Instruction` and subclasses (main.cpp:14-71) -/

/-- The eight IR instruction kinds. `add`/`sub`/`right`/`left` carry the C++
`int value` payload. -/
inductive Insn where
  | add (value : Int)
  | sub (value : Int)
  | right (value : Int)
  | left (value : Int)
  | loop
  | endLoop
  | write
  | read
deriving Repr, DecidableEq

/-- A `Block` is its list of instructions (main.cpp:73-83). -/
abbrev Block := List Insn

/-- A `Program` is its list of blocks (main.cpp:85-99). -/
abbrev Program := List Block

/-! ### Frontend: `Compiler::compile_program` (main.cpp:349-456) -/

/-- `Compiler::is_add_or_sub` (main.cpp:450-452), as a character predicate. -/
def isAddOrSub (c : Char) : Bool := c = '+' || c = '-'

/-- `Compiler::is_shift` (main.cpp:453-455), as a character predicate. -/
def isShift (c : Char) : Bool := c = '<' || c = '>'

/-- The accumulation `total++` / `total--` over a `+`/`-` run
(main.cpp:357-365): `+` counts +1, anything else (here only `-`) counts -1. -/
def addSubTotal (run : List Char) : Int :=
  run.foldl (fun t c => if c = '+' then t + 1 else t - 1) 0

/-- The accumulation over a `<`/`>` run (main.cpp:381-389): `<` counts -1,
anything else (here only `>`) counts +1. -/
def shiftTotal (run : List Char) : Int :=
  run.foldl (fun t c => if c = '<' then t - 1 else t + 1) 0

/-- Instructions emitted for a folded `+`/`-` run (main.cpp:370-377):
nothing when the total is zero, `Add(total)` when positive,
`Sub(-total)` when negative. -/
def foldAddSub (t : Int) : List Insn :=
  if t = 0 then [] else if 0 < t then [Insn.add t] else [Insn.sub (-t)]

/-- Instructions emitted for a folded `<`/`>` run (main.cpp:394-401). -/
def foldShift (t : Int) : List Insn :=
  if t = 0 then [] else if 0 < t then [Insn.right t] else [Insn.left (-t)]

/-- The scanning loop of `Compiler::compile_program` (main.cpp:355-424).
`cur` is the block currently being appended to (`program.blocks.back()`),
`done` the completed blocks before it.  At `[` the current block is closed,
a block holding only `Loop` is appended, and a fresh block is opened
(main.cpp:412-417); symmetrically for `]`.  Characters outside the eight
instruction bytes fall through every `if` and are skipped.  The fuel
argument bounds the number of loop iterations; each iteration consumes at
least one character, so `code.length + 1` fuel (see `blocksOf`) never runs
out. -/
def buildAux : Nat → List Char → Block → Program → Program
  | 0, _, cur, done => done ++ [cur]
  | _ + 1, [], cur, done => done ++ [cur]
  | fuel + 1, c :: rest, cur, done =>
    if isAddOrSub c then
      buildAux fuel (rest.dropWhile isAddOrSub)
        (cur ++ foldAddSub (addSubTotal (c :: rest.takeWhile isAddOrSub))) done
    else if isShift c then
      buildAux fuel (rest.dropWhile isShift)
        (cur ++ foldShift (shiftTotal (c :: rest.takeWhile isShift))) done
    else if c = '.' then buildAux fuel rest (cur ++ [Insn.write]) done
    else if c = ',' then buildAux fuel rest (cur ++ [Insn.read]) done
    else if c = '[' then buildAux fuel rest [] (done ++ [cur, [Insn.loop]])
    else if c = ']' then buildAux fuel rest [] (done ++ [cur, [Insn.endLoop]])
    else buildAux fuel rest cur done

/-- The block sequence built by `Compiler::compile_program` for `code`
(before bracket validation): one initial empty block (main.cpp:354), then the
scanning loop. -/
def blocksOf (code : List Char) : Program :=
  buildAux (code.length + 1) code [] []

/-- All instructions of the built program, in order (blocks flattened). -/
def insnsOf (code : List Char) : List Insn :=
  (blocksOf code).flatten

/-- The two fatal parse errors of `Compiler::validate_loops`
(main.cpp:439 and main.cpp:446). -/
inductive ParseError where
  | unmatchedClose
  | unmatchedOpen
deriving Repr, DecidableEq

/-- Both parse errors call `exit(1)` (main.cpp:440, main.cpp:447). -/
def exitCodeOf (_ : ParseError) : Nat := 1

/-- The depth-counting pass of `Compiler::validate_loops` (main.cpp:430-449)
over the flattened instruction sequence: `Loop` increments the depth,
`EndLoop` decrements it and a negative depth is the `Unmatched ']'` error;
a positive final depth is the `Unmatched '['` error. -/
def validateAux : List Insn → Int → Option ParseError
  | [], d => if 0 < d then some ParseError.unmatchedOpen else none
  | i :: rest, d =>
    match i with
    | Insn.loop => validateAux rest (d + 1)
    | Insn.endLoop =>
      if d - 1 < 0 then some ParseError.unmatchedClose else validateAux rest (d - 1)
    | _ => validateAux rest d

/-- `Compiler::validate_loops` iterates blocks then instructions
(main.cpp:432-444), i.e. the flattened program. -/
def validateLoops (prog : Program) : Option ParseError :=
  validateAux prog.flatten 0

/-- `Compiler::compile_program` (main.cpp:352-427): build the blocks, then
validate; a validation error is fatal (`exit(1)`), modelled as `Except`. -/
def compile_program (code : List Char) : Except ParseError Program :=
  match validateLoops (blocksOf code) with
  | some e => Except.error e
  | none => Except.ok (blocksOf code)

/-! ### `JIT::Emitter` (main.cpp:101-289)

Byte buffers are `List Nat` with every entry below 256 by construction; the
C++ narrowing conversions (`int` → `unsigned char`, `int` → `unsigned int`)
are made explicit with `% 256` / `% 2^32`. -/

/-- A machine-code buffer (`std::vector<char>` of `JIT::Emitter`). -/
abbrev Buf := List Nat

/-- Register indices of the `Register64` enum (main.cpp:118-125). -/
def rax : Nat := 0
/-- `Register64::RCX = 0b001`. -/
def rcx : Nat := 1
/-- `Register64::RDX = 0b010`. -/
def rdx : Nat := 2
/-- `Register64::RBX = 0b011`. -/
def rbx : Nat := 3
/-- `Register64::RSI = 0b110`. -/
def rsi : Nat := 6
/-- `Register64::RDI = 0b111`. -/
def rdi : Nat := 7
/-- `Register8::AL = 0b000` (main.cpp:103-107). -/
def al : Nat := 0

/-- `Imm8` (main.cpp:127-139): one byte; the constructor takes an
`unsigned char`, so an `int` argument is reduced mod 256. -/
def imm8bytes (v : Int) : Buf := [(v % 256).toNat]

/-- `Imm32` (main.cpp:141-156): four little-endian bytes of the value
converted to `unsigned int` (mod `2^32`). -/
def imm32bytes (v : Int) : Buf :=
  [(v % 4294967296).toNat % 256,
   (v % 4294967296).toNat / 256 % 256,
   (v % 4294967296).toNat / 65536 % 256,
   (v % 4294967296).toNat / 16777216 % 256]

/-- `Imm64` (main.cpp:158-173): eight bytes, but the stored field is
`unsigned int`, so only the low four bytes can be non-zero. -/
def imm64bytes (v : Int) : Buf := imm32bytes v ++ [0, 0, 0, 0]

/-- `Emitter::ret` (main.cpp:176): `C3`. -/
def e_ret : Buf := [0xC3]

/-- `Emitter::mov(Register64, Imm64)` (main.cpp:182-187): `48 B8+rd io`. -/
def e_mov_r64_imm64 (dst : Nat) (v : Int) : Buf := [0x48, 0xB8 ||| dst] ++ imm64bytes v

/-- `Emitter::mov(Register64, Register64)` (main.cpp:188-192):
`48 89 /r` with ModR/M `C0 | src<<3 | dst`. -/
def e_mov_r64_r64 (dst src : Nat) : Buf := [0x48, 0x89, 0xC0 ||| (src <<< 3) ||| dst]

/-- `Emitter::mov_deref` (main.cpp:196-199), `mov dst, [src]`: `8A /r`. -/
def e_mov_deref (dst src : Nat) : Buf := [0x8A, (dst <<< 3) ||| src]

/-- `Emitter::deref_mov` (main.cpp:203-206), `mov [dst], src`: `88 /r`. -/
def e_deref_mov (dst src : Nat) : Buf := [0x88, (src <<< 3) ||| dst]

/-- `Emitter::add(Register64, Imm32)` (main.cpp:217-223): `48 81 /0 id`. -/
def e_add_r64_imm32 (dst : Nat) (v : Int) : Buf := [0x48, 0x81, 0xC0 ||| dst] ++ imm32bytes v

/-- `Emitter::sub(Register64, Imm32)` (main.cpp:230-236): `48 81 /5 id`. -/
def e_sub_r64_imm32 (dst : Nat) (v : Int) : Buf := [0x48, 0x81, 0xE8 ||| dst] ++ imm32bytes v

/-- `Emitter::al_add` (main.cpp:237-241): `04 ib`. -/
def e_al_add (v : Int) : Buf := [0x04] ++ imm8bytes v

/-- `Emitter::al_sub` (main.cpp:242-246): `2C ib`. -/
def e_al_sub (v : Int) : Buf := [0x2C] ++ imm8bytes v

/-- `Emitter::cmp_al` (main.cpp:253-257): `3C ib`. -/
def e_cmp_al (v : Int) : Buf := [0x3C] ++ imm8bytes v

/-- `Emitter::jz` (main.cpp:263-268): `0F 84 cd`. -/
def e_jz (v : Int) : Buf := [0x0F, 0x84] ++ imm32bytes v

/-- `Emitter::jnz` (main.cpp:269-274): `0F 85 cd`. -/
def e_jnz (v : Int) : Buf := [0x0F, 0x85] ++ imm32bytes v

/-- `Emitter::syscall` (main.cpp:276-279): `0F 05`. -/
def e_syscall : Buf := [0x0F, 0x05]

/-! ### `JIT::Compiler` (main.cpp:291-345) -/

/-- `JIT::Compiler::compile_setup` (main.cpp:293-295): `mov RCX, RDI`. -/
def compile_setup : Buf := e_mov_r64_r64 rcx rdi

/-- `JIT::Compiler::compile_cleanup` (main.cpp:296-299):
`mov RAX, 0; ret`. -/
def compile_cleanup : Buf := e_mov_r64_imm64 rax 0 ++ e_ret

/-- `JIT::Compiler::compile_add` (main.cpp:300-304):
`mov AL,[RCX]; add AL, value; mov [RCX], AL`. -/
def compile_add (v : Int) : Buf := e_mov_deref al rcx ++ e_al_add v ++ e_deref_mov rcx al

/-- `JIT::Compiler::compile_sub` (main.cpp:305-309). -/
def compile_sub (v : Int) : Buf := e_mov_deref al rcx ++ e_al_sub v ++ e_deref_mov rcx al

/-- `JIT::Compiler::compile_right` (main.cpp:310-312): `add RCX, value`. -/
def compile_right (v : Int) : Buf := e_add_r64_imm32 rcx v

/-- `JIT::Compiler::compile_left` (main.cpp:313-315): `sub RCX, value`. -/
def compile_left (v : Int) : Buf := e_sub_r64_imm32 rcx v

/-- `JIT::Compiler::compile_write` (main.cpp:316-324): `mov RAX,1; mov RDI,1;
mov RSI,RCX; mov RDX,1; mov RBX,RCX; syscall; mov RCX,RBX`. -/
def compile_write : Buf :=
  e_mov_r64_imm64 rax 1 ++ e_mov_r64_imm64 rdi 1 ++ e_mov_r64_r64 rsi rcx ++
    e_mov_r64_imm64 rdx 1 ++ e_mov_r64_r64 rbx rcx ++ e_syscall ++ e_mov_r64_r64 rcx rbx

/-- `JIT::Compiler::compile_read` (main.cpp:325-333): as `compile_write`
with `RAX = 0` and `RDI = 0`. -/
def compile_read : Buf :=
  e_mov_r64_imm64 rax 0 ++ e_mov_r64_imm64 rdi 0 ++ e_mov_r64_r64 rsi rcx ++
    e_mov_r64_imm64 rdx 1 ++ e_mov_r64_r64 rbx rcx ++ e_syscall ++ e_mov_r64_r64 rcx rbx

/-- `JIT::Compiler::compile_loop` (main.cpp:334-338), appending to the given
emitter buffer: `mov AL,[RCX]; cmp AL,0; jz offset`. -/
def compile_loop (offset : Int) (em : Buf) : Buf :=
  em ++ e_mov_deref al rcx ++ e_cmp_al 0 ++ e_jz offset

/-- `JIT::Compiler::compile_end_loop` (main.cpp:339-344): emit
`mov AL,[RCX]; cmp AL,0`, then `offset += emitter.length() + 2` (measured
after those four bytes) and `jnz (-offset)`. -/
def compile_end_loop (offset : Int) (em : Buf) : Buf :=
  (em ++ e_mov_deref al rcx ++ e_cmp_al 0) ++
    e_jnz (-(offset + ((em ++ e_mov_deref al rcx ++ e_cmp_al 0).length : Int) + 2))

/-! ### `JitCompiler` (main.cpp:458-582) -/

/-- `JitCompiler::process_instruction` (main.cpp:540-579): append the code
for one instruction to the block's emitter; `Loop` and `EndLoop` emit
nothing at this stage. -/
def process_instruction (em : Buf) (i : Insn) : Buf :=
  match i with
  | Insn.add v => em ++ compile_add v
  | Insn.sub v => em ++ compile_sub v
  | Insn.right v => em ++ compile_right v
  | Insn.left v => em ++ compile_left v
  | Insn.read => em ++ compile_read
  | Insn.write => em ++ compile_write
  | Insn.loop => em
  | Insn.endLoop => em

/-- One block's emitter after `JitCompiler::generate_emitters`
(main.cpp:479-486): a fresh emitter, each instruction appended in order. -/
def blockEmitter (b : Block) : Buf := b.foldl process_instruction []

/-- Each block paired with its stage-4 emitter buffer; entry `j` corresponds
to the C++ `emitters[j + 1]` (index 0 being the untouched setup emitter). -/
def pairProg (prog : Program) : List (Block × Buf) :=
  prog.map (fun b => (b, blockEmitter b))

/-- The inner, recursive `JitCompiler::emit_jumps(program, position)`
(main.cpp:499-523), scanning the blocks after an open `[` whose emitter is
`opEm`, with `len` the accumulated byte length since the `[` block.
Blocks pass by: empty blocks add nothing (main.cpp:502-504), other
non-marker blocks add their emitter length (main.cpp:518).  A nested `Loop`
block is resolved recursively and the lengths of all its blocks (opener
through matching `EndLoop`) are added (main.cpp:506-511).  At an `EndLoop`
block, `compile_loop(len)` is appended to the `[` emitter, `len` grows by
that emitter's new length, `compile_end_loop(len)` is appended to the `]`
emitter, and the scan returns (main.cpp:512-516).  Falling off the end is
the C++ `exit` branch (main.cpp:521-522), modelled as `none`.  Returns the
patched `[` emitter, the processed segment up to and including the `]`
block, and the unprocessed suffix. -/
def innerScan : Nat → Buf → List (Block × Buf) → Nat → Option (Buf × List (Block × Buf) × List (Block × Buf))
  | 0, _, _, _ => none
  | _ + 1, _, [], _ => none
  | fuel + 1, opEm, (b, em) :: rest, len =>
    if b.isEmpty then
      match innerScan fuel opEm rest len with
      | none => none
      | some (opEm', seg', rest') => some (opEm', (b, em) :: seg', rest')
    else if b.head? = some Insn.loop then
      match innerScan fuel em rest 0 with
      | none => none
      | some (emN, segN, restN) =>
        match innerScan fuel opEm restN
            (len + emN.length + (segN.map (fun be => be.2.length)).sum) with
        | none => none
        | some (opEm', seg', rest') => some (opEm', (b, emN) :: (segN ++ seg'), rest')
    else if b.head? = some Insn.endLoop then
      some (compile_loop (len : Int) opEm,
        [(b, compile_end_loop ((len : Int) + ((compile_loop (len : Int) opEm).length : Int)) em)],
        rest)
    else
      match innerScan fuel opEm rest (len + em.length) with
      | none => none
      | some (opEm', seg', rest') => some (opEm', (b, em) :: seg', rest')

/-- The outer `JitCompiler::emit_jumps(program)` (main.cpp:488-498): scan
the blocks; at each block whose first instruction is `Loop`, resolve that
loop with `innerScan` and continue after its matching `EndLoop` block;
every other block passes through unchanged. -/
def outerScan : Nat → List (Block × Buf) → Option (List (Block × Buf))
  | 0, _ => none
  | _ + 1, [] => some []
  | fuel + 1, (b, em) :: rest =>
    if ¬b.isEmpty ∧ b.head? = some Insn.loop then
      match innerScan fuel em rest 0 with
      | none => none
      | some (em', seg, rest') =>
        match outerScan fuel rest' with
        | none => none
        | some out => some ((b, em') :: (seg ++ out))
    else
      match outerScan fuel rest with
      | none => none
      | some out => some ((b, em) :: out)

/-- Jump resolution over the paired block/emitter list; `none` is the inner
scan's fatal fall-through. -/
def emit_jumps (l : List (Block × Buf)) : Option (List (Block × Buf)) :=
  outerScan (l.length + 1) l

/-- `JitCompiler::compile` (main.cpp:462-476) up to the byte image:
`setup()` pushes the prologue emitter, `generate_emitters` one emitter per
block, `emit_jumps` patches the loop-marker emitters, `cleanup()` appends
the epilogue emitter, and `fn_code` is the concatenation of all emitters in
order. -/
def jitCompileCode (prog : Program) : Option Buf :=
  match emit_jumps (pairProg prog) with
  | none => none
  | some resolved =>
    some (List.flatten (compile_setup :: (resolved.map Prod.snd ++ [compile_cleanup])))

/-- The pipeline from source text through machine code: a parse error is
fatal before any machine code exists. -/
def fullCompile (code : List Char) : Except ParseError (Option Buf) :=
  match compile_program code with
  | Except.error e => Except.error e
  | Except.ok prog => Except.ok (jitCompileCode prog)

/-! ### `JitCompiler::allocate_function` and the mmap result (main.cpp:473-529)

`allocate_function` (main.cpp:525-529) returns the raw `mmap` result with no
comparison against `MAP_FAILED`; `compile` (main.cpp:473-475) immediately
`memcpy`s the code to that address and casts it to the function pointer.
The operating system's answer is a parameter of the model. -/

/-- The POSIX failure sentinel `MAP_FAILED = (void *)-1`, as an address. -/
def MAP_FAILED : Int := -1

/-- `JitCompiler::allocate_function` (main.cpp:525-529): the `mmap` result,
returned unchecked. -/
def allocate_function (osResult : Int) : Int := osResult

/-- What the tail of `JitCompiler::compile` (main.cpp:473-475) does with the
allocation: the `memcpy` destination and the returned function pointer. -/
structure JitFinish where
  copyDest : Int
  fnPtr : Int
deriving Repr, DecidableEq

/-- The tail of `JitCompiler::compile` (main.cpp:473-475): copy the code to
`allocate_function`'s result and return it as the function pointer,
unconditionally. -/
def jit_finish (osResult : Int) : JitFinish :=
  { copyDest := allocate_function osResult, fnPtr := allocate_function osResult }

/-- Little-endian decoding of a 4-byte immediate field. -/
def imm32val (b : Buf) : Nat :=
  match b with
  | [b0, b1, b2, b3] => b0 + 256 * b1 + 65536 * b2 + 16777216 * b3
  | _ => 0

/-! ### Lemma layer: the flattened scan

`scanAux` is the block-free view of the scanning loop: the same character
walk as `buildAux`, producing the instruction sequence without the block
structure.  `buildAux_flatten` below proves that flattening the built blocks
yields exactly this sequence. -/

/-- The instruction sequence the scanning loop emits, ignoring blocks. -/
def scanAux : Nat → List Char → List Insn
  | 0, _ => []
  | _ + 1, [] => []
  | fuel + 1, c :: rest =>
    if isAddOrSub c then
      foldAddSub (addSubTotal (c :: rest.takeWhile isAddOrSub)) ++
        scanAux fuel (rest.dropWhile isAddOrSub)
    else if isShift c then
      foldShift (shiftTotal (c :: rest.takeWhile isShift)) ++
        scanAux fuel (rest.dropWhile isShift)
    else if c = '.' then Insn.write :: scanAux fuel rest
    else if c = ',' then Insn.read :: scanAux fuel rest
    else if c = '[' then Insn.loop :: scanAux fuel rest
    else if c = ']' then Insn.endLoop :: scanAux fuel rest
    else scanAux fuel rest

/-- The flattened scan with canonical fuel. -/
def scanTop (code : List Char) : List Insn :=
  scanAux (code.length + 1) code

theorem scanAux_congr :
    ∀ f₁ f₂ (l : List Char), l.length < f₁ → l.length < f₂ →
      scanAux f₁ l = scanAux f₂ l := by
  intro f₁
  induction f₁ with
  | zero => intro f₂ l h1 _; omega
  | succ f ih =>
    intro f₂ l h1 h2
    match f₂, l with
    | 0, l => omega
    | g + 1, [] => rfl
    | g + 1, c :: rest =>
      have hrest : rest.length < f := by simp at h1; omega
      have hrest' : rest.length < g := by simp at h2; omega
      have hdropAS : (rest.dropWhile isAddOrSub).length ≤ rest.length :=
        (List.dropWhile_suffix isAddOrSub).length_le
      have hdropSh : (rest.dropWhile isShift).length ≤ rest.length :=
        (List.dropWhile_suffix isShift).length_le
      simp only [scanAux]
      split_ifs
      · rw [ih g (rest.dropWhile isAddOrSub) (by omega) (by omega)]
      · rw [ih g (rest.dropWhile isShift) (by omega) (by omega)]
      · rw [ih g rest (by omega) (by omega)]
      · rw [ih g rest (by omega) (by omega)]
      · rw [ih g rest (by omega) (by omega)]
      · rw [ih g rest (by omega) (by omega)]
      · exact ih g rest (by omega) (by omega)

theorem scanTop_nil : scanTop [] = [] := rfl

theorem scanTop_addsub (c : Char) (rest : List Char) (h : isAddOrSub c = true) :
    scanTop (c :: rest) =
      foldAddSub (addSubTotal (c :: rest.takeWhile isAddOrSub)) ++
        scanTop (rest.dropWhile isAddOrSub) := by
  have hdrop : (rest.dropWhile isAddOrSub).length ≤ rest.length :=
    (List.dropWhile_suffix isAddOrSub).length_le
  simp only [scanTop, List.length_cons, scanAux, h, if_true]
  rw [scanAux_congr (rest.length + 1) ((rest.dropWhile isAddOrSub).length + 1)
    (rest.dropWhile isAddOrSub) (by omega) (by omega)]

theorem scanTop_shift (c : Char) (rest : List Char) (h0 : isAddOrSub c = false)
    (h : isShift c = true) :
    scanTop (c :: rest) =
      foldShift (shiftTotal (c :: rest.takeWhile isShift)) ++
        scanTop (rest.dropWhile isShift) := by
  have hdrop : (rest.dropWhile isShift).length ≤ rest.length :=
    (List.dropWhile_suffix isShift).length_le
  simp only [scanTop, List.length_cons, scanAux]
  rw [if_neg (by simp [h0]), if_pos h]
  rw [scanAux_congr (rest.length + 1) ((rest.dropWhile isShift).length + 1)
    (rest.dropWhile isShift) (by omega) (by omega)]

theorem scanTop_write (rest : List Char) :
    scanTop ('.' :: rest) = Insn.write :: scanTop rest := by
  simp only [scanTop, List.length_cons, scanAux]
  simp +decide

theorem scanTop_read (rest : List Char) :
    scanTop (',' :: rest) = Insn.read :: scanTop rest := by
  simp only [scanTop, List.length_cons, scanAux]
  simp +decide

theorem scanTop_open (rest : List Char) :
    scanTop ('[' :: rest) = Insn.loop :: scanTop rest := by
  simp only [scanTop, List.length_cons, scanAux]
  simp +decide

theorem scanTop_close (rest : List Char) :
    scanTop (']' :: rest) = Insn.endLoop :: scanTop rest := by
  simp only [scanTop, List.length_cons, scanAux]
  simp +decide

theorem scanTop_skip (c : Char) (rest : List Char) (h0 : isAddOrSub c = false)
    (h1 : isShift c = false) (h2 : c ≠ '.') (h3 : c ≠ ',') (h4 : c ≠ '[')
    (h5 : c ≠ ']') :
    scanTop (c :: rest) = scanTop rest := by
  simp only [scanTop, List.length_cons, scanAux]
  rw [if_neg (by simp [h0]), if_neg (by simp [h1]), if_neg h2, if_neg h3,
    if_neg h4, if_neg h5]

theorem buildAux_flatten :
    ∀ fuel (code : List Char) (cur : Block) (done : Program),
      (buildAux fuel code cur done).flatten =
        done.flatten ++ cur ++ scanAux fuel code := by
  intro fuel
  induction fuel with
  | zero => intro code cur done; simp [buildAux, scanAux]
  | succ f ih =>
    intro code cur done
    match code with
    | [] => simp [buildAux, scanAux]
    | c :: rest =>
      simp only [buildAux, scanAux]
      split_ifs
      · rw [ih]; simp
      · rw [ih]; simp
      · rw [ih]; simp
      · rw [ih]; simp
      · rw [ih]; simp
      · rw [ih]; simp
      · rw [ih]

/-- The instructions of the built program are the flattened scan. -/
theorem insnsOf_eq_scanTop (code : List Char) : insnsOf code = scanTop code := by
  simp only [insnsOf, blocksOf, scanTop, buildAux_flatten]
  simp

/-! ### takeWhile/dropWhile over appends -/

theorem takeWhile_append_of_drop_ne_nil {p : Char → Bool} :
    ∀ (a t : List Char), a.dropWhile p ≠ [] →
      (a ++ t).takeWhile p = a.takeWhile p ∧
        (a ++ t).dropWhile p = a.dropWhile p ++ t := by
  intro a
  induction a with
  | nil => intro t h; simp at h
  | cons x a' ih =>
    intro t h
    by_cases hx : p x
    · have h' : a'.dropWhile p ≠ [] := by
        simpa [List.dropWhile_cons, hx] using h
      have := ih t h'
      simp [List.takeWhile_cons, List.dropWhile_cons, hx, this.1, this.2]
    · simp [List.takeWhile_cons, List.dropWhile_cons, hx]

theorem takeWhile_append_of_all {p : Char → Bool} :
    ∀ (a t : List Char), (∀ c ∈ a, p c = true) →
      (a ++ t).takeWhile p = a ++ t.takeWhile p ∧
        (a ++ t).dropWhile p = t.dropWhile p := by
  intro a
  induction a with
  | nil => intro t _; simp
  | cons x a' ih =>
    intro t h
    have hx : p x = true := h x (by simp)
    have h' : ∀ c ∈ a', p c = true := fun c hc => h c (by simp [hc])
    have := ih t h'
    simp [List.takeWhile_cons, List.dropWhile_cons, hx, this.1, this.2]

theorem takeWhile_nil_of_head {p : Char → Bool} (t : List Char)
    (h : t.head?.elim false p = false) :
    t.takeWhile p = [] ∧ t.dropWhile p = t := by
  match t with
  | [] => simp
  | c :: rest =>
    simp only [List.head?_cons, Option.elim_some] at h
    simp [List.takeWhile_cons, List.dropWhile_cons, h]

/-! ### The scan distributes over run-safe appends -/

/-- `o` is a character of the `+`/`-` class. -/
def classAS (o : Option Char) : Bool := o.elim false isAddOrSub

/-- `o` is a character of the `<`/`>` class. -/
def classSh (o : Option Char) : Bool := o.elim false isShift

/-- The boundary between `a` and `t` does not interrupt a fold run: the two
sides do not touch with characters of the same foldable class. -/
def runSafe (a t : List Char) : Prop :=
  (classAS a.getLast? && classAS t.head?) = false ∧
    (classSh a.getLast? && classSh t.head?) = false

theorem getLast?_of_dropWhile_ne_nil {p : Char → Bool} (a : List Char)
    (h : a.dropWhile p ≠ []) : (a.dropWhile p).getLast? = a.getLast? := by
  conv_rhs => rw [← List.takeWhile_append_dropWhile (p := p) (l := a)]
  rw [List.getLast?_append_of_ne_nil _ h]

theorem all_of_dropWhile_nil {p : Char → Bool} :
    ∀ (a : List Char), a.dropWhile p = [] → ∀ c ∈ a, p c = true := by
  intro a
  induction a with
  | nil => intro _ c hc; simp at hc
  | cons x a' ih =>
    intro h c hc
    by_cases hx : p x
    · rw [List.dropWhile_cons, if_pos hx] at h
      rcases List.mem_cons.mp hc with rfl | hc
      · exact hx
      · exact ih h c hc
    · rw [List.dropWhile_cons, if_neg hx] at h
      simp at h

theorem classAS_getLast_of_all {a : List Char} (hne : a ≠ [])
    (h : ∀ c ∈ a, isAddOrSub c = true) : classAS a.getLast? = true := by
  rw [List.getLast?_eq_getLast a hne]
  exact h _ (List.getLast_mem hne)

theorem classSh_getLast_of_all {a : List Char} (hne : a ≠ [])
    (h : ∀ c ∈ a, isShift c = true) : classSh a.getLast? = true := by
  rw [List.getLast?_eq_getLast a hne]
  exact h _ (List.getLast_mem hne)

/-- Scanning an appended string whose boundary does not split a run is the
append of the two scans: a character outside a run's class always ends the
run, so the left side's runs never reach into the right side. -/
theorem scanTop_append :
    ∀ (a t : List Char), runSafe a t → scanTop (a ++ t) = scanTop a ++ scanTop t := by
  have main : ∀ n (a t : List Char), a.length ≤ n → runSafe a t →
      scanTop (a ++ t) = scanTop a ++ scanTop t := by
    intro n
    induction n with
    | zero =>
      intro a t hlen _
      have : a = [] := List.length_eq_zero.mp (Nat.le_zero.mp hlen)
      subst this; simp [scanTop_nil]
    | succ n ih =>
      intro a t hlen hsafe
      match a with
      | [] => simp [scanTop_nil]
      | c :: a' =>
        by_cases hAS : isAddOrSub c
        · -- a `+`/`-` run begins; it cannot cross into `t`
          rcases hδ : a'.dropWhile isAddOrSub with _ | ⟨d, δ'⟩
          · -- the whole of `a` is in the run; `t` must not start with `+`/`-`
            have hall : ∀ x ∈ a', isAddOrSub x = true := all_of_dropWhile_nil a' hδ
            have halla : ∀ x ∈ c :: a', isAddOrSub x = true := by
              intro x hx
              rcases List.mem_cons.mp hx with rfl | hx
              · exact hAS
              · exact hall x hx
            have hlast : classAS (c :: a').getLast? = true :=
              classAS_getLast_of_all (by simp) halla
            have hthead : classAS t.head? = false := by
              cases hh : classAS t.head?
              · rfl
              · have h := hsafe.1; rw [hlast, hh] at h; simp at h
            have htw := takeWhile_nil_of_head (p := isAddOrSub) t hthead
            have hta : a'.takeWhile isAddOrSub = a' := by
              have h := List.takeWhile_append_dropWhile (p := isAddOrSub) (l := a')
              rw [hδ] at h; simpa using h
            have h1 := takeWhile_append_of_all (p := isAddOrSub) a' t hall
            rw [List.cons_append, scanTop_addsub c (a' ++ t) hAS, h1.1, htw.1, h1.2,
              htw.2, scanTop_addsub c a' hAS, hδ, hta]
            simp [scanTop_nil]
          · -- the run ends inside `a`
            have hne : a'.dropWhile isAddOrSub ≠ [] := by rw [hδ]; simp
            have h1 := takeWhile_append_of_drop_ne_nil (p := isAddOrSub) a' t hne
            have hlast : (a'.dropWhile isAddOrSub).getLast? = a'.getLast? :=
              getLast?_of_dropWhile_ne_nil a' hne
            have hlast2 : a'.getLast? = (c :: a').getLast? := by
              match a' with
              | [] => simp at hδ
              | y :: a'' => simp
            have hsafe' : runSafe (a'.dropWhile isAddOrSub) t := by
              constructor
              · rw [hlast, hlast2]; exact hsafe.1
              · rw [hlast, hlast2]; exact hsafe.2
            have hlen' : (a'.dropWhile isAddOrSub).length ≤ n := by
              have := (List.dropWhile_suffix (l := a') isAddOrSub).length_le
              simp at hlen; omega
            rw [List.cons_append, scanTop_addsub c (a' ++ t) hAS, h1.1, h1.2,
              scanTop_addsub c a' hAS, ih _ t hlen' hsafe']
            simp
        · by_cases hSh : isShift c
          · rcases hδ : a'.dropWhile isShift with _ | ⟨d, δ'⟩
            · have hall : ∀ x ∈ a', isShift x = true := all_of_dropWhile_nil a' hδ
              have halla : ∀ x ∈ c :: a', isShift x = true := by
                intro x hx
                rcases List.mem_cons.mp hx with rfl | hx
                · exact hSh
                · exact hall x hx
              have hlast : classSh (c :: a').getLast? = true :=
                classSh_getLast_of_all (by simp) halla
              have hthead : classSh t.head? = false := by
                cases hh : classSh t.head?
                · rfl
                · have h := hsafe.2; rw [hlast, hh] at h; simp at h
              have htw := takeWhile_nil_of_head (p := isShift) t hthead
              have hta : a'.takeWhile isShift = a' := by
                have h := List.takeWhile_append_dropWhile (p := isShift) (l := a')
                rw [hδ] at h; simpa using h
              have h1 := takeWhile_append_of_all (p := isShift) a' t hall
              rw [List.cons_append, scanTop_shift c (a' ++ t) (by simpa using hAS) hSh,
                h1.1, htw.1, h1.2, htw.2, scanTop_shift c a' (by simpa using hAS) hSh,
                hδ, hta]
              simp [scanTop_nil]
            · have hne : a'.dropWhile isShift ≠ [] := by rw [hδ]; simp
              have h1 := takeWhile_append_of_drop_ne_nil (p := isShift) a' t hne
              have hlast : (a'.dropWhile isShift).getLast? = a'.getLast? :=
                getLast?_of_dropWhile_ne_nil a' hne
              have hlast2 : a'.getLast? = (c :: a').getLast? := by
                match a' with
                | [] => simp at hδ
                | y :: a'' => simp
              have hsafe' : runSafe (a'.dropWhile isShift) t := by
                constructor
                · rw [hlast, hlast2]; exact hsafe.1
                · rw [hlast, hlast2]; exact hsafe.2
              have hlen' : (a'.dropWhile isShift).length ≤ n := by
                have := (List.dropWhile_suffix (l := a') isShift).length_le
                simp at hlen; omega
              rw [List.cons_append, scanTop_shift c (a' ++ t) (by simpa using hAS) hSh,
                h1.1, h1.2, scanTop_shift c a' (by simpa using hAS) hSh,
                ih _ t hlen' hsafe']
              simp
          · -- a single non-foldable character is consumed
            have hlen' : a'.length ≤ n := by simp at hlen; omega
            have hsafe' : runSafe a' t := by
              match a' with
              | [] =>
                constructor <;> simp [classAS, classSh]
              | y :: a'' =>
                constructor
                · have h := hsafe.1; simpa using h
                · have h := hsafe.2; simpa using h
            have hstep := ih a' t hlen' hsafe'
            by_cases h2 : c = '.'
            · subst h2; rw [List.cons_append, scanTop_write, scanTop_write, hstep]; simp
            · by_cases h3 : c = ','
              · subst h3; rw [List.cons_append, scanTop_read, scanTop_read, hstep]; simp
              · by_cases h4 : c = '['
                · subst h4; rw [List.cons_append, scanTop_open, scanTop_open, hstep]; simp
                · by_cases h5 : c = ']'
                  · subst h5
                    rw [List.cons_append, scanTop_close, scanTop_close, hstep]; simp
                  · rw [List.cons_append,
                      scanTop_skip c (a' ++ t) (by simpa using hAS) (by simpa using hSh)
                        h2 h3 h4 h5,
                      scanTop_skip c a' (by simpa using hAS) (by simpa using hSh)
                        h2 h3 h4 h5, hstep]
  intro a t hsafe
  exact main a.length a t le_rfl hsafe

/-! ### Values of folded runs -/

theorem addSub_foldl_acc :
    ∀ (r : List Char) (a : Int),
      r.foldl (fun t c => if c = '+' then t + 1 else t - 1) a = a + addSubTotal r := by
  intro r
  induction r with
  | nil => intro a; simp [addSubTotal]
  | cons c r' ih =>
    intro a
    have h1 := ih (if c = '+' then a + 1 else a - 1)
    have h2 := ih (if c = '+' then (0 : Int) + 1 else (0 : Int) - 1)
    simp only [addSubTotal, List.foldl_cons]
    rw [h1, h2]
    by_cases hc : c = '+' <;> simp [hc] <;> ring

theorem shift_foldl_acc :
    ∀ (r : List Char) (a : Int),
      r.foldl (fun t c => if c = '<' then t - 1 else t + 1) a = a + shiftTotal r := by
  intro r
  induction r with
  | nil => intro a; simp [shiftTotal]
  | cons c r' ih =>
    intro a
    have h1 := ih (if c = '<' then a - 1 else a + 1)
    have h2 := ih (if c = '<' then (0 : Int) - 1 else (0 : Int) + 1)
    simp only [shiftTotal, List.foldl_cons]
    rw [h1, h2]
    by_cases hc : c = '<' <;> simp [hc] <;> ring

/-- Over a pure `+`/`-` run the accumulated total is
(number of `+`) − (number of `-`). -/
theorem addSubTotal_count :
    ∀ (r : List Char), (∀ c ∈ r, isAddOrSub c = true) →
      addSubTotal r = (r.count '+' : Int) - (r.count '-' : Int) := by
  intro r
  induction r with
  | nil => simp [addSubTotal]
  | cons c r' ih =>
    intro h
    have hc : isAddOrSub c = true := h c (by simp)
    have h' : ∀ x ∈ r', isAddOrSub x = true := fun x hx => h x (by simp [hx])
    have h2 := addSub_foldl_acc r' (if c = '+' then (0 : Int) + 1 else (0 : Int) - 1)
    have key : addSubTotal (c :: r') =
        (if c = '+' then (0 : Int) + 1 else (0 : Int) - 1) + addSubTotal r' := by
      refine Eq.trans ?_ h2
      simp only [addSubTotal, List.foldl_cons]
    rw [key, ih h']
    rcases (by simpa [isAddOrSub] using hc : c = '+' ∨ c = '-') with rfl | rfl
    · simp +decide [List.count_cons]
      omega
    · simp +decide [List.count_cons]
      omega

/-- Over a pure `<`/`>` run the accumulated total is
(number of `>`) − (number of `<`). -/
theorem shiftTotal_count :
    ∀ (r : List Char), (∀ c ∈ r, isShift c = true) →
      shiftTotal r = (r.count '>' : Int) - (r.count '<' : Int) := by
  intro r
  induction r with
  | nil => simp [shiftTotal]
  | cons c r' ih =>
    intro h
    have hc : isShift c = true := h c (by simp)
    have h' : ∀ x ∈ r', isShift x = true := fun x hx => h x (by simp [hx])
    have h2 := shift_foldl_acc r' (if c = '<' then (0 : Int) - 1 else (0 : Int) + 1)
    have key : shiftTotal (c :: r') =
        (if c = '<' then (0 : Int) - 1 else (0 : Int) + 1) + shiftTotal r' := by
      refine Eq.trans ?_ h2
      simp only [shiftTotal, List.foldl_cons]
    rw [key, ih h']
    rcases (by simpa [isShift] using hc : c = '<' ∨ c = '>') with rfl | rfl
    · simp +decide [List.count_cons]
      omega
    · simp +decide [List.count_cons]
      omega

/-- Scanning a maximal `+`/`-` run followed by anything that does not extend
it yields exactly the folded instruction for the run. -/
theorem scanTop_run_addsub (r t : List Char) (hne : r ≠ [])
    (hall : ∀ c ∈ r, isAddOrSub c = true) (hhead : classAS t.head? = false) :
    scanTop (r ++ t) = foldAddSub (addSubTotal r) ++ scanTop t := by
  match r with
  | c :: r' =>
    have hc : isAddOrSub c = true := hall c (by simp)
    have hall' : ∀ x ∈ r', isAddOrSub x = true := fun x hx => hall x (by simp [hx])
    have h1 := takeWhile_append_of_all (p := isAddOrSub) r' t hall'
    have htw := takeWhile_nil_of_head (p := isAddOrSub) t hhead
    rw [List.cons_append, scanTop_addsub c (r' ++ t) hc, h1.1, htw.1, h1.2, htw.2]
    simp

/-- Scanning a maximal `<`/`>` run followed by anything that does not extend
it yields exactly the folded instruction for the run. -/
theorem scanTop_run_shift (r t : List Char) (hne : r ≠ [])
    (hall : ∀ c ∈ r, isShift c = true) (hhead : classSh t.head? = false) :
    scanTop (r ++ t) = foldShift (shiftTotal r) ++ scanTop t := by
  match r with
  | c :: r' =>
    have hc : isShift c = true := hall c (by simp)
    have hc0 : isAddOrSub c = false := by
      rcases (by simpa [isShift] using hc : c = '<' ∨ c = '>') with rfl | rfl <;> decide
    have hall' : ∀ x ∈ r', isShift x = true := fun x hx => hall x (by simp [hx])
    have h1 := takeWhile_append_of_all (p := isShift) r' t hall'
    have htw := takeWhile_nil_of_head (p := isShift) t hhead
    rw [List.cons_append, scanTop_shift c (r' ++ t) hc0 hc, h1.1, htw.1, h1.2, htw.2]
    simp

/-! ### Every counted instruction has count at least 1 -/

/-- The count payload of a counted instruction; 1 for the others. -/
def insnCount : Insn → Int
  | Insn.add v => v
  | Insn.sub v => v
  | Insn.right v => v
  | Insn.left v => v
  | _ => 1

theorem insnCount_foldAddSub (t : Int) : ∀ i ∈ foldAddSub t, 1 ≤ insnCount i := by
  intro i hi
  by_cases h0 : t = 0
  · simp [foldAddSub, h0] at hi
  · by_cases h1 : 0 < t
    · simp [foldAddSub, h0, h1] at hi
      subst hi; simp [insnCount]; omega
    · simp [foldAddSub, h0, h1] at hi
      subst hi; simp [insnCount]; omega

theorem insnCount_foldShift (t : Int) : ∀ i ∈ foldShift t, 1 ≤ insnCount i := by
  intro i hi
  by_cases h0 : t = 0
  · simp [foldShift, h0] at hi
  · by_cases h1 : 0 < t
    · simp [foldShift, h0, h1] at hi
      subst hi; simp [insnCount]; omega
    · simp [foldShift, h0, h1] at hi
      subst hi; simp [insnCount]; omega

theorem scanAux_count_ge_one :
    ∀ fuel (code : List Char), ∀ i ∈ scanAux fuel code, 1 ≤ insnCount i := by
  intro fuel
  induction fuel with
  | zero => intro code i hi; simp [scanAux] at hi
  | succ f ih =>
    intro code i hi
    match code with
    | [] => simp [scanAux] at hi
    | c :: rest =>
      simp only [scanAux] at hi
      split_ifs at hi
      · rcases List.mem_append.mp hi with h | h
        · exact insnCount_foldAddSub _ i h
        · exact ih _ i h
      · rcases List.mem_append.mp hi with h | h
        · exact insnCount_foldShift _ i h
        · exact ih _ i h
      · rcases List.mem_cons.mp hi with rfl | h
        · simp [insnCount]
        · exact ih _ i h
      · rcases List.mem_cons.mp hi with rfl | h
        · simp [insnCount]
        · exact ih _ i h
      · rcases List.mem_cons.mp hi with rfl | h
        · simp [insnCount]
        · exact ih _ i h
      · rcases List.mem_cons.mp hi with rfl | h
        · simp [insnCount]
        · exact ih _ i h
      · exact ih _ i hi

/-! ### Loop markers and bracket validation -/

/-- Is the instruction a loop boundary marker? -/
def isMarker (i : Insn) : Bool :=
  match i with
  | Insn.loop => true
  | Insn.endLoop => true
  | _ => false

/-- The subsequence of loop markers of an instruction list. -/
def markersOfI (l : List Insn) : List Insn := l.filter isMarker

/-- The bracket characters of a source string, as loop markers. -/
def bracketMarks (code : List Char) : List Insn :=
  code.filterMap
    (fun c => if c = '[' then some Insn.loop
      else if c = ']' then some Insn.endLoop else none)

/-- The depth change `validate_loops` applies for one instruction. -/
def depthDelta (i : Insn) : Int :=
  match i with
  | Insn.loop => 1
  | Insn.endLoop => -1
  | _ => 0

/-- Total depth change over an instruction list. -/
def sumDelta (l : List Insn) : Int := (l.map depthDelta).sum

theorem sumDelta_nil : sumDelta [] = 0 := rfl

theorem sumDelta_cons (i : Insn) (l : List Insn) :
    sumDelta (i :: l) = depthDelta i + sumDelta l := by
  simp [sumDelta]

theorem sumDelta_append (a b : List Insn) :
    sumDelta (a ++ b) = sumDelta a + sumDelta b := by
  simp [sumDelta]

/-- `validate_loops` only reacts to the loop markers. -/
theorem validateAux_markers :
    ∀ (l : List Insn) (d : Int), validateAux l d = validateAux (markersOfI l) d := by
  intro l
  induction l with
  | nil => intro d; rfl
  | cons i rest ih =>
    intro d
    match i with
    | Insn.loop => simp [validateAux, markersOfI, List.filter_cons, isMarker, ih]
    | Insn.endLoop =>
      by_cases hd : d - 1 < 0 <;>
        simp [validateAux, markersOfI, List.filter_cons, isMarker, hd, ih]
    | Insn.add v => simpa [validateAux, markersOfI, List.filter_cons, isMarker] using ih d
    | Insn.sub v => simpa [validateAux, markersOfI, List.filter_cons, isMarker] using ih d
    | Insn.right v => simpa [validateAux, markersOfI, List.filter_cons, isMarker] using ih d
    | Insn.left v => simpa [validateAux, markersOfI, List.filter_cons, isMarker] using ih d
    | Insn.write => simpa [validateAux, markersOfI, List.filter_cons, isMarker] using ih d
    | Insn.read => simpa [validateAux, markersOfI, List.filter_cons, isMarker] using ih d

theorem markersOfI_append (a b : List Insn) :
    markersOfI (a ++ b) = markersOfI a ++ markersOfI b := by
  simp [markersOfI]

theorem markersOfI_foldAddSub (t : Int) : markersOfI (foldAddSub t) = [] := by
  by_cases h0 : t = 0
  · simp [foldAddSub, h0, markersOfI]
  · by_cases h1 : 0 < t <;> simp [foldAddSub, h0, h1, markersOfI, isMarker]

theorem markersOfI_foldShift (t : Int) : markersOfI (foldShift t) = [] := by
  by_cases h0 : t = 0
  · simp [foldShift, h0, markersOfI]
  · by_cases h1 : 0 < t <;> simp [foldShift, h0, h1, markersOfI, isMarker]

theorem bracketMarks_append (a b : List Char) :
    bracketMarks (a ++ b) = bracketMarks a ++ bracketMarks b := by
  simp [bracketMarks]

theorem markersOfI_cons_nonmarker (i : Insn) (l : List Insn) (h : isMarker i = false) :
    markersOfI (i :: l) = markersOfI l := by
  simp [markersOfI, List.filter_cons, h]

theorem markersOfI_cons_marker (i : Insn) (l : List Insn) (h : isMarker i = true) :
    markersOfI (i :: l) = i :: markersOfI l := by
  simp [markersOfI, List.filter_cons, h]

theorem bracketMarks_cons_open (rest : List Char) :
    bracketMarks ('[' :: rest) = Insn.loop :: bracketMarks rest := by
  simp +decide [bracketMarks, List.filterMap_cons]

theorem bracketMarks_cons_close (rest : List Char) :
    bracketMarks (']' :: rest) = Insn.endLoop :: bracketMarks rest := by
  simp +decide [bracketMarks, List.filterMap_cons]

theorem bracketMarks_cons_other (c : Char) (rest : List Char) (h4 : c ≠ '[')
    (h5 : c ≠ ']') : bracketMarks (c :: rest) = bracketMarks rest := by
  simp only [bracketMarks]
  rw [List.filterMap_cons_none (by simp [h4, h5])]

theorem bracketMarks_nil_of_all_addsub (a : List Char)
    (h : ∀ c ∈ a, isAddOrSub c = true) : bracketMarks a = [] := by
  induction a with
  | nil => rfl
  | cons c a' ih =>
    have hc : isAddOrSub c = true := h c (by simp)
    have hne : ¬c = '[' ∧ ¬c = ']' := by
      rcases (by simpa [isAddOrSub] using hc : c = '+' ∨ c = '-') with rfl | rfl <;>
        exact ⟨by decide, by decide⟩
    rw [bracketMarks_cons_other c a' hne.1 hne.2]
    exact ih (fun x hx => h x (by simp [hx]))

theorem bracketMarks_nil_of_all_shift (a : List Char)
    (h : ∀ c ∈ a, isShift c = true) : bracketMarks a = [] := by
  induction a with
  | nil => rfl
  | cons c a' ih =>
    have hc : isShift c = true := h c (by simp)
    have hne : ¬c = '[' ∧ ¬c = ']' := by
      rcases (by simpa [isShift] using hc : c = '<' ∨ c = '>') with rfl | rfl <;>
        exact ⟨by decide, by decide⟩
    rw [bracketMarks_cons_other c a' hne.1 hne.2]
    exact ih (fun x hx => h x (by simp [hx]))

/-- The loop markers the frontend emits are exactly the bracket characters of
the source, in order. -/
theorem markersOfI_scanTop :
    ∀ (code : List Char), markersOfI (scanTop code) = bracketMarks code := by
  have main : ∀ n (code : List Char), code.length ≤ n →
      markersOfI (scanTop code) = bracketMarks code := by
    intro n
    induction n with
    | zero =>
      intro code hlen
      have : code = [] := List.length_eq_zero.mp (Nat.le_zero.mp hlen)
      subst this; rfl
    | succ n ih =>
      intro code hlen
      match code with
      | [] => rfl
      | c :: rest =>
        by_cases hAS : isAddOrSub c
        · have hsplit : c :: rest =
              (c :: rest.takeWhile isAddOrSub) ++ rest.dropWhile isAddOrSub := by
            simp [List.takeWhile_append_dropWhile]
          have hallrun : ∀ x ∈ c :: rest.takeWhile isAddOrSub, isAddOrSub x = true := by
            intro x hx
            rcases List.mem_cons.mp hx with rfl | hx
            · exact hAS
            · exact List.mem_takeWhile_imp hx
          have hlen' : (rest.dropWhile isAddOrSub).length ≤ n := by
            have := (List.dropWhile_suffix (l := rest) isAddOrSub).length_le
            simp at hlen; omega
          rw [scanTop_addsub c rest hAS, markersOfI_append, markersOfI_foldAddSub,
            ih _ hlen']
          conv_rhs => rw [hsplit]
          rw [bracketMarks_append, bracketMarks_nil_of_all_addsub _ hallrun]
        · by_cases hSh : isShift c
          · have hsplit : c :: rest =
                (c :: rest.takeWhile isShift) ++ rest.dropWhile isShift := by
              simp [List.takeWhile_append_dropWhile]
            have hallrun : ∀ x ∈ c :: rest.takeWhile isShift, isShift x = true := by
              intro x hx
              rcases List.mem_cons.mp hx with rfl | hx
              · exact hSh
              · exact List.mem_takeWhile_imp hx
            have hlen' : (rest.dropWhile isShift).length ≤ n := by
              have := (List.dropWhile_suffix (l := rest) isShift).length_le
              simp at hlen; omega
            rw [scanTop_shift c rest (by simpa using hAS) hSh, markersOfI_append,
              markersOfI_foldShift, ih _ hlen']
            conv_rhs => rw [hsplit]
            rw [bracketMarks_append, bracketMarks_nil_of_all_shift _ hallrun]
          · have hlen' : rest.length ≤ n := by simp at hlen; omega
            have hrec := ih rest hlen'
            by_cases h2 : c = '.'
            · subst h2
              rw [scanTop_write, markersOfI_cons_nonmarker _ _ (by decide),
                bracketMarks_cons_other _ _ (by decide) (by decide), hrec]
            · by_cases h3 : c = ','
              · subst h3
                rw [scanTop_read, markersOfI_cons_nonmarker _ _ (by decide),
                  bracketMarks_cons_other _ _ (by decide) (by decide), hrec]
              · by_cases h4 : c = '['
                · subst h4
                  rw [scanTop_open, markersOfI_cons_marker _ _ (by decide),
                    bracketMarks_cons_open, hrec]
                · by_cases h5 : c = ']'
                  · subst h5
                    rw [scanTop_close, markersOfI_cons_marker _ _ (by decide),
                      bracketMarks_cons_close, hrec]
                  · rw [scanTop_skip c rest (by simpa using hAS) (by simpa using hSh)
                      h2 h3 h4 h5, bracketMarks_cons_other c rest h4 h5, hrec]
  intro code
  exact main code.length code le_rfl

/-- A split of a `filterMap` image comes from a split of the source list. -/
theorem filterMap_split {α β : Type} (f : α → Option β) :
    ∀ (l : List α) (m₁ m₂ : List β), l.filterMap f = m₁ ++ m₂ →
      ∃ p q, l = p ++ q ∧ p.filterMap f = m₁ ∧ q.filterMap f = m₂ := by
  intro l
  induction l with
  | nil =>
    intro m₁ m₂ h
    simp at h
    exact ⟨[], [], by simp, by simp [h.1], by simp [h.2]⟩
  | cons x l' ih =>
    intro m₁ m₂ h
    rcases hfx : f x with _ | b
    · rw [List.filterMap_cons_none hfx] at h
      obtain ⟨p, q, hpq, h1, h2⟩ := ih m₁ m₂ h
      exact ⟨x :: p, q, by simp [hpq], by rw [List.filterMap_cons_none hfx]; exact h1, h2⟩
    · rw [List.filterMap_cons_some hfx] at h
      match m₁ with
      | [] =>
        refine ⟨[], x :: l', by simp, by simp, ?_⟩
        rw [List.filterMap_cons_some hfx]
        simpa using h
      | b₁ :: m₁' =>
        simp only [List.cons_append, List.cons.injEq] at h
        obtain ⟨rfl, h'⟩ := h
        obtain ⟨p, q, hpq, h1, h2⟩ := ih m₁' m₂ h'
        exact ⟨x :: p, q, by simp [hpq],
          by rw [List.filterMap_cons_some hfx, h1], h2⟩

/-- Depth change of the brackets of a string: opens minus closes. -/
theorem sumDelta_bracketMarks (p : List Char) :
    sumDelta (bracketMarks p) = (p.count '[' : Int) - (p.count ']' : Int) := by
  induction p with
  | nil => simp [bracketMarks, sumDelta]
  | cons c p' ih =>
    by_cases h4 : c = '['
    · subst h4
      rw [bracketMarks_cons_open, sumDelta_cons, ih]
      simp +decide [List.count_cons, depthDelta]
      omega
    · by_cases h5 : c = ']'
      · subst h5
        rw [bracketMarks_cons_close, sumDelta_cons, ih]
        simp +decide [List.count_cons, depthDelta]
        omega
      · rw [bracketMarks_cons_other c p' h4 h5, ih]
        simp [List.count_cons, h4, h5]

/-- If some prefix takes the depth negative, validation reports the
unmatched-`]` error. -/
theorem validateAux_close_err :
    ∀ (m : List Insn) (d : Int), 0 ≤ d →
      (∃ m₁ m₂, m = m₁ ++ m₂ ∧ d + sumDelta m₁ < 0) →
      validateAux m d = some ParseError.unmatchedClose := by
  intro m
  induction m with
  | nil =>
    intro d hd ⟨m₁, m₂, hm, hs⟩
    have : m₁ = [] := by
      rcases m₁ with _ | ⟨x, m₁'⟩
      · rfl
      · simp at hm
    subst this
    rw [sumDelta_nil] at hs
    omega
  | cons i rest ih =>
    intro d hd ⟨m₁, m₂, hm, hs⟩
    match m₁, hm with
    | [], hm =>
      rw [sumDelta_nil] at hs
      omega
    | i' :: m₁', hm =>
      simp only [List.cons_append, List.cons.injEq] at hm
      obtain ⟨rfl, hm'⟩ := hm
      rw [sumDelta_cons] at hs
      match i with
      | Insn.loop =>
        simp only [validateAux]
        exact ih (d + 1) (by omega)
          ⟨m₁', m₂, hm', by simp [depthDelta] at hs; omega⟩
      | Insn.endLoop =>
        by_cases hneg : d - 1 < 0
        · simp [validateAux, hneg]
        · simp only [validateAux, if_neg hneg]
          exact ih (d - 1) (by omega)
            ⟨m₁', m₂, hm', by simp [depthDelta] at hs; omega⟩
      | Insn.add v =>
        simp only [validateAux]
        exact ih d hd ⟨m₁', m₂, hm', by simp [depthDelta] at hs; omega⟩
      | Insn.sub v =>
        simp only [validateAux]
        exact ih d hd ⟨m₁', m₂, hm', by simp [depthDelta] at hs; omega⟩
      | Insn.right v =>
        simp only [validateAux]
        exact ih d hd ⟨m₁', m₂, hm', by simp [depthDelta] at hs; omega⟩
      | Insn.left v =>
        simp only [validateAux]
        exact ih d hd ⟨m₁', m₂, hm', by simp [depthDelta] at hs; omega⟩
      | Insn.write =>
        simp only [validateAux]
        exact ih d hd ⟨m₁', m₂, hm', by simp [depthDelta] at hs; omega⟩
      | Insn.read =>
        simp only [validateAux]
        exact ih d hd ⟨m₁', m₂, hm', by simp [depthDelta] at hs; omega⟩

/-- If no prefix takes the depth negative but the total depth is positive,
validation reports the unmatched-`[` error. -/
theorem validateAux_open_err :
    ∀ (m : List Insn) (d : Int),
      (∀ m₁ m₂, m = m₁ ++ m₂ → 0 ≤ d + sumDelta m₁) →
      0 < d + sumDelta m →
      validateAux m d = some ParseError.unmatchedOpen := by
  intro m
  induction m with
  | nil =>
    intro d _ hpos
    rw [sumDelta_nil] at hpos
    simp [validateAux]
    omega
  | cons i rest ih =>
    intro d hpre hpos
    rw [sumDelta_cons] at hpos
    have hpre' : ∀ m₁ m₂, rest = m₁ ++ m₂ → 0 ≤ (d + depthDelta i) + sumDelta m₁ := by
      intro m₁ m₂ hm
      have := hpre (i :: m₁) m₂ (by simp [hm])
      rw [sumDelta_cons] at this
      omega
    match i with
    | Insn.loop =>
      simp only [validateAux]
      exact ih (d + 1) (by simpa [depthDelta] using hpre')
        (by simp [depthDelta] at hpos; omega)
    | Insn.endLoop =>
      have h1 : 0 ≤ d + sumDelta [Insn.endLoop] := hpre [Insn.endLoop] rest (by simp)
      have hd1 : ¬(d - 1 < 0) := by
        rw [sumDelta_cons, sumDelta_nil] at h1
        simp [depthDelta] at h1
        omega
      simp only [validateAux, if_neg hd1]
      exact ih (d - 1) (by simpa [depthDelta] using hpre')
        (by simp [depthDelta] at hpos; omega)
    | Insn.add v =>
      simp only [validateAux]
      exact ih d (by simpa [depthDelta] using hpre') (by simp [depthDelta] at hpos; omega)
    | Insn.sub v =>
      simp only [validateAux]
      exact ih d (by simpa [depthDelta] using hpre') (by simp [depthDelta] at hpos; omega)
    | Insn.right v =>
      simp only [validateAux]
      exact ih d (by simpa [depthDelta] using hpre') (by simp [depthDelta] at hpos; omega)
    | Insn.left v =>
      simp only [validateAux]
      exact ih d (by simpa [depthDelta] using hpre') (by simp [depthDelta] at hpos; omega)
    | Insn.write =>
      simp only [validateAux]
      exact ih d (by simpa [depthDelta] using hpre') (by simp [depthDelta] at hpos; omega)
    | Insn.read =>
      simp only [validateAux]
      exact ih d (by simpa [depthDelta] using hpre') (by simp [depthDelta] at hpos; omega)

/-- If no prefix takes the depth negative and the total depth is zero,
validation succeeds. -/
theorem validateAux_ok :
    ∀ (m : List Insn) (d : Int),
      (∀ m₁ m₂, m = m₁ ++ m₂ → 0 ≤ d + sumDelta m₁) →
      d + sumDelta m = 0 →
      validateAux m d = none := by
  intro m
  induction m with
  | nil =>
    intro d _ hzero
    rw [sumDelta_nil] at hzero
    simp [validateAux]
    omega
  | cons i rest ih =>
    intro d hpre hzero
    rw [sumDelta_cons] at hzero
    have hpre' : ∀ m₁ m₂, rest = m₁ ++ m₂ → 0 ≤ (d + depthDelta i) + sumDelta m₁ := by
      intro m₁ m₂ hm
      have := hpre (i :: m₁) m₂ (by simp [hm])
      rw [sumDelta_cons] at this
      omega
    match i with
    | Insn.loop =>
      simp only [validateAux]
      exact ih (d + 1) (by simpa [depthDelta] using hpre')
        (by simp [depthDelta] at hzero; omega)
    | Insn.endLoop =>
      have h1 : 0 ≤ d + sumDelta [Insn.endLoop] := hpre [Insn.endLoop] rest (by simp)
      have hd1 : ¬(d - 1 < 0) := by
        rw [sumDelta_cons, sumDelta_nil] at h1
        simp [depthDelta] at h1
        omega
      simp only [validateAux, if_neg hd1]
      exact ih (d - 1) (by simpa [depthDelta] using hpre')
        (by simp [depthDelta] at hzero; omega)
    | Insn.add v =>
      simp only [validateAux]
      exact ih d (by simpa [depthDelta] using hpre') (by simp [depthDelta] at hzero; omega)
    | Insn.sub v =>
      simp only [validateAux]
      exact ih d (by simpa [depthDelta] using hpre') (by simp [depthDelta] at hzero; omega)
    | Insn.right v =>
      simp only [validateAux]
      exact ih d (by simpa [depthDelta] using hpre') (by simp [depthDelta] at hzero; omega)
    | Insn.left v =>
      simp only [validateAux]
      exact ih d (by simpa [depthDelta] using hpre') (by simp [depthDelta] at hzero; omega)
    | Insn.write =>
      simp only [validateAux]
      exact ih d (by simpa [depthDelta] using hpre') (by simp [depthDelta] at hzero; omega)
    | Insn.read =>
      simp only [validateAux]
      exact ih d (by simpa [depthDelta] using hpre') (by simp [depthDelta] at hzero; omega)

/-! ### Jump resolution: specifications of `innerScan` / `outerScan` -/

/-- Is the block a loop-marker block, as `emit_jumps` tests it: non-empty
with a `Loop` or `EndLoop` front instruction? -/
def isMarkerBlock (b : Block) : Bool :=
  match b.head? with
  | some Insn.loop => true
  | some Insn.endLoop => true
  | _ => false

/-- The marker sequence `emit_jumps` sees: one marker per marker block, in
block order. -/
def marks (l : List (Block × Buf)) : List Insn :=
  l.filterMap
    (fun be =>
      match be.1.head? with
      | some Insn.loop => some Insn.loop
      | some Insn.endLoop => some Insn.endLoop
      | _ => none)

/-- How jump resolution may change one block's entry: the block itself is
unchanged; a marker block's buffer grows by exactly one 10-byte jump
sequence, any other buffer is untouched. -/
def Patched (x y : Block × Buf) : Prop :=
  y.1 = x.1 ∧
    (if isMarkerBlock x.1 then y.2.length = x.2.length + 10 else y.2 = x.2)

theorem marks_nil : marks [] = [] := rfl

theorem marks_append (a b : List (Block × Buf)) :
    marks (a ++ b) = marks a ++ marks b := by
  simp [marks]

theorem marks_cons_loop (b : Block) (em : Buf) (l : List (Block × Buf))
    (h : b.head? = some Insn.loop) :
    marks ((b, em) :: l) = Insn.loop :: marks l := by
  simp [marks, List.filterMap_cons, h]

theorem marks_cons_endLoop (b : Block) (em : Buf) (l : List (Block × Buf))
    (h : b.head? = some Insn.endLoop) :
    marks ((b, em) :: l) = Insn.endLoop :: marks l := by
  simp [marks, List.filterMap_cons, h]

theorem marks_cons_other (b : Block) (em : Buf) (l : List (Block × Buf))
    (h : isMarkerBlock b = false) :
    marks ((b, em) :: l) = marks l := by
  simp only [marks, List.filterMap_cons]
  match hb : b.head? with
  | some Insn.loop => rw [isMarkerBlock, hb] at h; simp at h
  | some Insn.endLoop => rw [isMarkerBlock, hb] at h; simp at h
  | some (Insn.add v) => simp [hb]
  | some (Insn.sub v) => simp [hb]
  | some (Insn.right v) => simp [hb]
  | some (Insn.left v) => simp [hb]
  | some Insn.write => simp [hb]
  | some Insn.read => simp [hb]
  | none => simp [hb]

theorem forall₂_patched_append {a b c d : List (Block × Buf)}
    (h1 : List.Forall₂ Patched a b) (h2 : List.Forall₂ Patched c d) :
    List.Forall₂ Patched (a ++ c) (b ++ d) := by
  induction h1 with
  | nil => simpa using h2
  | cons hx _ ih => exact List.Forall₂.cons hx ih

theorem map_fst_of_forall₂ :
    ∀ {a b : List (Block × Buf)}, List.Forall₂ Patched a b →
      b.map Prod.fst = a.map Prod.fst := by
  intro a b h
  induction h with
  | nil => rfl
  | cons hxy _ ih => simp [hxy.1, ih]

theorem marks_eq_filterMap_map (l : List (Block × Buf)) :
    marks l = (l.map Prod.fst).filterMap
      (fun blk =>
        match blk.head? with
        | some Insn.loop => some Insn.loop
        | some Insn.endLoop => some Insn.endLoop
        | _ => none) := by
  rw [List.filterMap_map]
  rfl

theorem marks_of_forall₂ :
    ∀ {a b : List (Block × Buf)}, List.Forall₂ Patched a b → marks b = marks a := by
  intro a b h
  rw [marks_eq_filterMap_map, marks_eq_filterMap_map, map_fst_of_forall₂ h]

/-- `depthDelta` is `-1` only for `EndLoop`. -/
theorem eq_endLoop_of_delta_neg (i : Insn) (h : depthDelta i < 0) : i = Insn.endLoop := by
  match i with
  | Insn.loop => simp [depthDelta] at h
  | Insn.endLoop => rfl
  | Insn.add v => simp [depthDelta] at h
  | Insn.sub v => simp [depthDelta] at h
  | Insn.right v => simp [depthDelta] at h
  | Insn.left v => simp [depthDelta] at h
  | Insn.write => simp [depthDelta] at h
  | Insn.read => simp [depthDelta] at h

theorem depthDelta_ge_neg_one (i : Insn) : -1 ≤ depthDelta i := by
  match i with
  | Insn.loop => simp [depthDelta]
  | Insn.endLoop => simp [depthDelta]
  | Insn.add v => simp [depthDelta]
  | Insn.sub v => simp [depthDelta]
  | Insn.right v => simp [depthDelta]
  | Insn.left v => simp [depthDelta]
  | Insn.write => simp [depthDelta]
  | Insn.read => simp [depthDelta]

theorem compile_loop_length (off : Int) (em : Buf) :
    (compile_loop off em).length = em.length + 10 := by
  simp [compile_loop, e_mov_deref, e_cmp_al, e_jz, imm8bytes, imm32bytes]

theorem compile_end_loop_length (off : Int) (em : Buf) :
    (compile_end_loop off em).length = em.length + 10 := by
  simp [compile_end_loop, e_mov_deref, e_cmp_al, e_jnz, imm8bytes, imm32bytes]

theorem isEmpty_false_of_head (b : Block) (i : Insn) (hb : b.head? = some i) :
    b.isEmpty = false := by
  match b with
  | [] => simp at hb
  | x :: l => rfl

theorem innerScan_cons_empty (f : Nat) (opEm : Buf) (b : Block) (em : Buf)
    (rest : List (Block × Buf)) (len : Nat) (hb : b.isEmpty = true) :
    innerScan (f + 1) opEm ((b, em) :: rest) len =
      match innerScan f opEm rest len with
      | none => none
      | some (opEm', seg', rest') => some (opEm', (b, em) :: seg', rest') := by
  simp only [innerScan, hb, if_true]

theorem innerScan_cons_loop (f : Nat) (opEm : Buf) (b : Block) (em : Buf)
    (rest : List (Block × Buf)) (len : Nat) (hb : b.head? = some Insn.loop) :
    innerScan (f + 1) opEm ((b, em) :: rest) len =
      match innerScan f em rest 0 with
      | none => none
      | some (emN, segN, restN) =>
        match innerScan f opEm restN
            (len + emN.length + (segN.map (fun be => be.2.length)).sum) with
        | none => none
        | some (opEm', seg', rest') =>
          some (opEm', (b, emN) :: (segN ++ seg'), rest') := by
  simp only [innerScan, isEmpty_false_of_head b _ hb, hb, if_true, Bool.false_eq_true,
    if_false]

theorem innerScan_cons_end (f : Nat) (opEm : Buf) (b : Block) (em : Buf)
    (rest : List (Block × Buf)) (len : Nat) (hb : b.head? = some Insn.endLoop) :
    innerScan (f + 1) opEm ((b, em) :: rest) len =
      some (compile_loop (len : Int) opEm,
        [(b, compile_end_loop
          ((len : Int) + ((compile_loop (len : Int) opEm).length : Int)) em)],
        rest) := by
  simp only [innerScan, isEmpty_false_of_head b _ hb, hb, Bool.false_eq_true, if_false]
  rw [if_neg (by simp)]
  simp

theorem innerScan_cons_pure (f : Nat) (opEm : Buf) (b : Block) (em : Buf)
    (rest : List (Block × Buf)) (len : Nat) (hne : b.isEmpty = false)
    (h1 : ¬(b.head? = some Insn.loop)) (h2 : ¬(b.head? = some Insn.endLoop)) :
    innerScan (f + 1) opEm ((b, em) :: rest) len =
      match innerScan f opEm rest (len + em.length) with
      | none => none
      | some (opEm', seg', rest') => some (opEm', (b, em) :: seg', rest') := by
  simp only [innerScan, hne, h1, h2, Bool.false_eq_true, if_false]

theorem outerScan_cons_loop (f : Nat) (b : Block) (em : Buf)
    (rest : List (Block × Buf)) (hb : b.head? = some Insn.loop) :
    outerScan (f + 1) ((b, em) :: rest) =
      match innerScan f em rest 0 with
      | none => none
      | some (em', seg, rest') =>
        match outerScan f rest' with
        | none => none
        | some out => some ((b, em') :: (seg ++ out)) := by
  have hcond : ¬b.isEmpty = true ∧ b.head? = some Insn.loop := by
    refine ⟨?_, hb⟩
    rw [isEmpty_false_of_head b _ hb]
    simp
  simp only [outerScan]
  rw [if_pos hcond]

theorem outerScan_cons_other (f : Nat) (b : Block) (em : Buf)
    (rest : List (Block × Buf)) (hb : ¬(¬b.isEmpty = true ∧ b.head? = some Insn.loop)) :
    outerScan (f + 1) ((b, em) :: rest) =
      match outerScan f rest with
      | none => none
      | some out => some ((b, em) :: out) := by
  simp only [outerScan]
  rw [if_neg hb]

/-- First-fall decomposition: if scanning `m` from a non-negative depth `d`
eventually drives the depth below zero, then `m` splits at the first
`EndLoop` that closes depth `d`: the part before it is depth-balanced. -/
theorem first_fall :
    ∀ (m : List Insn) (d : Int), 0 ≤ d → d + sumDelta m < 0 →
      ∃ u v, m = u ++ Insn.endLoop :: v ∧ d + sumDelta u = 0 ∧
        (∀ u₁ u₂, u = u₁ ++ u₂ → 0 ≤ d + sumDelta u₁) := by
  intro m
  induction m with
  | nil =>
    intro d hd hfall
    rw [sumDelta_nil] at hfall
    omega
  | cons i m' ih =>
    intro d hd hfall
    rw [sumDelta_cons] at hfall
    by_cases hneg : d + depthDelta i < 0
    · have hdi : depthDelta i < 0 := by omega
      have : i = Insn.endLoop := eq_endLoop_of_delta_neg i hdi
      subst this
      refine ⟨[], m', by simp, ?_, ?_⟩
      · rw [sumDelta_nil]
        simp [depthDelta] at hneg
        omega
      · intro u₁ u₂ hu
        have : u₁ = [] := by
          rcases u₁ with _ | ⟨x, u₁'⟩
          · rfl
          · simp at hu
        subst this
        rw [sumDelta_nil]
        omega
    · obtain ⟨u', v', hm', hsum', hpre'⟩ :=
        ih (d + depthDelta i) (by omega) (by omega)
      refine ⟨i :: u', v', by simp [hm'], ?_, ?_⟩
      · rw [sumDelta_cons]; omega
      · intro u₁ u₂ hu
        match u₁, hu with
        | [], _ => rw [sumDelta_nil]; omega
        | x :: u₁', hu =>
          simp only [List.cons_append, List.cons.injEq] at hu
          obtain ⟨rfl, hu'⟩ := hu
          rw [sumDelta_cons]
          have := hpre' u₁' u₂ hu'
          omega

theorem isMarkerBlock_eq_false (b : Block) (h1 : ¬(b.head? = some Insn.loop))
    (h2 : ¬(b.head? = some Insn.endLoop)) : isMarkerBlock b = false := by
  rcases hh : b.head? with _ | i
  · simp [isMarkerBlock, hh]
  · match i with
    | Insn.loop => exact absurd hh h1
    | Insn.endLoop => exact absurd hh h2
    | Insn.add v => simp [isMarkerBlock, hh]
    | Insn.sub v => simp [isMarkerBlock, hh]
    | Insn.right v => simp [isMarkerBlock, hh]
    | Insn.left v => simp [isMarkerBlock, hh]
    | Insn.write => simp [isMarkerBlock, hh]
    | Insn.read => simp [isMarkerBlock, hh]

/-- Success and shape of the inner `emit_jumps` scan.  If the marker sequence
of `l` closes an open loop — it splits as a depth-balanced `u` followed by an
`EndLoop` — then the scan succeeds, consuming exactly the blocks up to and
including that `EndLoop` block; the `[` emitter and every marker-block buffer
in the consumed prefix grow by one 10-byte jump sequence and nothing else
changes. -/
theorem innerScan_spec :
    ∀ fuel (l : List (Block × Buf)) (opEm : Buf) (len : Nat) (u v : List Insn),
      l.length < fuel →
      marks l = u ++ Insn.endLoop :: v →
      sumDelta u = 0 →
      (∀ u₁ u₂, u = u₁ ++ u₂ → 0 ≤ sumDelta u₁) →
      ∃ em' seg rest pref,
        innerScan fuel opEm l len = some (em', seg, rest) ∧
        l = pref ++ rest ∧
        pref ≠ [] ∧
        List.Forall₂ Patched pref seg ∧
        em'.length = opEm.length + 10 ∧
        marks pref = u ++ [Insn.endLoop] ∧
        marks rest = v := by
  intro fuel
  induction fuel with
  | zero => intro l opEm len u v hlen; omega
  | succ f ih =>
    intro l opEm len u v hlen hM hsum hpre
    match l with
    | [] =>
      rw [marks_nil] at hM
      exact absurd hM.symm (by simp)
    | (b, em) :: rest =>
      have hrest_len : rest.length < f := by simp at hlen; omega
      by_cases hemp : b.isEmpty
      · -- empty block: skipped without affecting marks or lengths
        have hmk : isMarkerBlock b = false := by
          match b with
          | [] => rfl
          | x :: bl => simp [List.isEmpty] at hemp
        rw [marks_cons_other b em rest hmk] at hM
        obtain ⟨em', seg', rest', pref', hscan, hsplit, _, hf₂, hlen10, hmp, hmr⟩ :=
          ih rest opEm len u v hrest_len hM hsum hpre
        refine ⟨em', (b, em) :: seg', rest', (b, em) :: pref',
          ?_, ?_, by simp, ?_, hlen10, ?_, hmr⟩
        · rw [innerScan_cons_empty f opEm b em rest len hemp, hscan]
        · rw [hsplit]; simp
        · exact List.Forall₂.cons ⟨rfl, by simp [Patched, hmk]⟩ hf₂
        · rw [marks_cons_other b em pref' hmk, hmp]
      · by_cases hloop : b.head? = some Insn.loop
        · -- a nested loop: resolve it, then continue scanning after it
          have hmkT : isMarkerBlock b = true := by simp [isMarkerBlock, hloop]
          rw [marks_cons_loop b em rest hloop] at hM
          rcases u with _ | ⟨x, u₂⟩
          · simp at hM
          · simp only [List.cons_append, List.cons.injEq] at hM
            obtain ⟨hx, hMrest⟩ := hM
            subst hx
            have hsum₂ : sumDelta u₂ = -1 := by
              rw [sumDelta_cons] at hsum
              simp [depthDelta] at hsum
              omega
            have hpre₂ : ∀ a c, u₂ = a ++ c → -1 ≤ sumDelta a := by
              intro a c hac
              have := hpre (Insn.loop :: a) c (by simp [hac])
              rw [sumDelta_cons] at this
              simp [depthDelta] at this
              omega
            obtain ⟨u₃, w, hu₂e, hsum₃, hpre₃⟩ :=
              first_fall (u₂ ++ [Insn.endLoop]) 0 le_rfl
                (by rw [sumDelta_append, sumDelta_cons, sumDelta_nil]
                    simp [depthDelta]
                    omega)
            have hw_ne : w ≠ [] := by
              intro hw0
              subst hw0
              have := (List.append_inj' hu₂e rfl).1
              rw [this] at hsum₂
              omega
            have hw_last : w.getLast? = some Insn.endLoop := by
              have h1 : (u₂ ++ [Insn.endLoop]).getLast? = some Insn.endLoop :=
                List.getLast?_concat u₂
              have h2 : (u₃ ++ Insn.endLoop :: w).getLast? = w.getLast? := by
                rw [show u₃ ++ Insn.endLoop :: w = (u₃ ++ [Insn.endLoop]) ++ w by simp]
                exact List.getLast?_append_of_ne_nil _ hw_ne
              rw [hu₂e, h2] at h1
              exact h1
            have hw_decomp : w = w.dropLast ++ [Insn.endLoop] := by
              rw [List.getLast?_eq_getLast w hw_ne] at hw_last
              have hgl : w.getLast hw_ne = Insn.endLoop := Option.some.inj hw_last
              have h3 := List.dropLast_append_getLast hw_ne
              rw [hgl] at h3
              exact h3.symm
            obtain ⟨w₀, hww⟩ : ∃ w₀, w = w₀ ++ [Insn.endLoop] := ⟨w.dropLast, hw_decomp⟩
            subst hww
            have hu₂ : u₂ = u₃ ++ Insn.endLoop :: w₀ := by
              have he : u₂ ++ [Insn.endLoop] =
                  (u₃ ++ Insn.endLoop :: w₀) ++ [Insn.endLoop] := by
                rw [hu₂e]; simp
              exact (List.append_inj' he rfl).1
            have hsw₀ : sumDelta w₀ = 0 := by
              rw [hu₂, sumDelta_append, sumDelta_cons] at hsum₂
              simp [depthDelta] at hsum₂
              omega
            have hpw₀ : ∀ a c, w₀ = a ++ c → 0 ≤ sumDelta a := by
              intro a c hac
              have := hpre₂ (u₃ ++ Insn.endLoop :: a) (c) (by rw [hu₂, hac]; simp)
              rw [sumDelta_append, sumDelta_cons] at this
              simp [depthDelta] at this
              omega
            have hMrest' : marks rest = u₃ ++ Insn.endLoop :: (w₀ ++ Insn.endLoop :: v) := by
              rw [hMrest, hu₂]
              simp
            obtain ⟨emN, segN, restN, prefN, hscanN, hsplitN, hneN, hf₂N, hlenN, hmpN, hmrN⟩ :=
              ih rest em 0 u₃ (w₀ ++ Insn.endLoop :: v) hrest_len hMrest'
                (by omega)
                (fun a c hac => by have := hpre₃ a c hac; omega)
            have hrestN_len : restN.length < f := by
              have h1 : rest.length = prefN.length + restN.length := by
                rw [hsplitN]; simp
              have h2 : 1 ≤ prefN.length := by
                match prefN, hneN with
                | y :: l', _ => simp
              omega
            obtain ⟨em', seg', rest', pref', hscan', hsplit', hne', hf₂', hlen', hmp', hmr'⟩ :=
              ih restN opEm (len + emN.length + (segN.map (fun be => be.2.length)).sum)
                w₀ v hrestN_len hmrN hsw₀ hpw₀
            refine ⟨em', (b, emN) :: (segN ++ seg'), rest', (b, em) :: (prefN ++ pref'),
              ?_, ?_, by simp, ?_, hlen', ?_, hmr'⟩
            · rw [innerScan_cons_loop f opEm b em rest len hloop]
              simp only [hscanN, hscan']
            · rw [hsplitN, hsplit']; simp
            · exact List.Forall₂.cons ⟨rfl, by simp [Patched, hmkT, hlenN]⟩
                (forall₂_patched_append hf₂N hf₂')
            · rw [marks_cons_loop b em _ hloop, marks_append, hmpN, hmp', hu₂]
              simp
        · by_cases hend : b.head? = some Insn.endLoop
          · -- the matching EndLoop: patch the opener and this block
            have hmkT : isMarkerBlock b = true := by simp [isMarkerBlock, hend]
            rw [marks_cons_endLoop b em rest hend] at hM
            have hu : u = [] := by
              rcases u with _ | ⟨x, u₂⟩
              · rfl
              · simp only [List.cons_append, List.cons.injEq] at hM
                obtain ⟨hx, _⟩ := hM
                have := hpre [Insn.endLoop] u₂ (by rw [← hx]; rfl)
                rw [sumDelta_cons, sumDelta_nil] at this
                simp [depthDelta] at this
            subst hu
            simp only [List.nil_append, List.cons.injEq] at hM
            obtain ⟨_, hv⟩ := hM
            refine ⟨compile_loop (len : Int) opEm,
              [(b, compile_end_loop
                ((len : Int) + ((compile_loop (len : Int) opEm).length : Int)) em)],
              rest, [(b, em)],
              innerScan_cons_end f opEm b em rest len hend,
              by simp, by simp, ?_, compile_loop_length _ _, ?_, hv⟩
            · exact List.Forall₂.cons
                ⟨rfl, by simp [Patched, hmkT, compile_end_loop_length]⟩ List.Forall₂.nil
            · rw [marks_cons_endLoop b em [] hend, marks_nil]
              rfl
          · -- an ordinary code block: its length is accumulated
            have hmk : isMarkerBlock b = false := isMarkerBlock_eq_false b hloop hend
            rw [marks_cons_other b em rest hmk] at hM
            obtain ⟨em', seg', rest', pref', hscan, hsplit, _, hf₂, hlen10, hmp, hmr⟩ :=
              ih rest opEm (len + em.length) u v hrest_len hM hsum hpre
            refine ⟨em', (b, em) :: seg', rest', (b, em) :: pref',
              ?_, ?_, by simp, ?_, hlen10, ?_, hmr⟩
            · rw [innerScan_cons_pure f opEm b em rest len
                (by simpa using hemp) hloop hend, hscan]
            · rw [hsplit]; simp
            · exact List.Forall₂.cons ⟨rfl, by simp [Patched, hmk]⟩ hf₂
            · rw [marks_cons_other b em pref' hmk, hmp]

/-- Success and shape of the outer `emit_jumps` scan on a depth-balanced
block sequence: it never reaches the fatal fall-through, and its output is
the input with every marker-block buffer grown by one 10-byte jump sequence
and every other buffer untouched. -/
theorem outerScan_spec :
    ∀ fuel (l : List (Block × Buf)),
      l.length < fuel →
      (∀ m₁ m₂, marks l = m₁ ++ m₂ → 0 ≤ sumDelta m₁) →
      sumDelta (marks l) = 0 →
      ∃ out, outerScan fuel l = some out ∧ List.Forall₂ Patched l out := by
  intro fuel
  induction fuel with
  | zero => intro l hlen; omega
  | succ f ih =>
    intro l hlen hpre hsum
    match l with
    | [] => exact ⟨[], rfl, List.Forall₂.nil⟩
    | (b, em) :: rest =>
      have hrest_len : rest.length < f := by simp at hlen; omega
      by_cases hloop : b.head? = some Insn.loop
      · -- resolve the loop opened here, continue after its matching close
        have hmkT : isMarkerBlock b = true := by simp [isMarkerBlock, hloop]
        rw [marks_cons_loop b em rest hloop] at hpre hsum
        have hsum_rest : sumDelta (marks rest) = -1 := by
          rw [sumDelta_cons] at hsum
          simp [depthDelta] at hsum
          omega
        obtain ⟨u, v, hmr, hsum_u, hpre_u⟩ :=
          first_fall (marks rest) 0 le_rfl (by omega)
        obtain ⟨em', seg, rest', pref, hscan, hsplit, hne, hf₂, hlen10, hmp, hmrv⟩ :=
          innerScan_spec f rest em 0 u v hrest_len hmr (by omega)
            (fun a c hac => by have := hpre_u a c hac; omega)
        have hrest'_len : rest'.length < f := by
          have h1 : rest.length = pref.length + rest'.length := by
            rw [hsplit]; simp
          have h2 : 1 ≤ pref.length := by
            match pref, hne with
            | y :: l', _ => simp
          omega
        have hsum_v : sumDelta v = 0 := by
          rw [hmr, sumDelta_append, sumDelta_cons] at hsum_rest
          simp [depthDelta] at hsum_rest
          omega
        have hpre_v : ∀ m₁ m₂, v = m₁ ++ m₂ → 0 ≤ sumDelta m₁ := by
          intro m₁ m₂ hm
          have := hpre (Insn.loop :: (u ++ Insn.endLoop :: m₁)) m₂
            (by rw [hmr, hm]; simp)
          rw [sumDelta_cons, sumDelta_append, sumDelta_cons] at this
          simp [depthDelta] at this
          omega
        obtain ⟨out', houter, hf₂out⟩ := ih rest' hrest'_len
          (by rw [hmrv]; exact hpre_v) (by rw [hmrv]; exact hsum_v)
        refine ⟨(b, em') :: (seg ++ out'), ?_, ?_⟩
        · rw [outerScan_cons_loop f b em rest hloop]
          simp only [hscan, houter]
        · rw [hsplit]
          exact List.Forall₂.cons ⟨rfl, by simp [Patched, hmkT, hlen10]⟩
            (forall₂_patched_append hf₂ hf₂out)
      · by_cases hend : b.head? = some Insn.endLoop
        · -- an unmatched close at the outer level contradicts balance
          exfalso
          rw [marks_cons_endLoop b em rest hend] at hpre
          have := hpre [Insn.endLoop] (marks rest) rfl
          rw [sumDelta_cons, sumDelta_nil] at this
          simp [depthDelta] at this
        · -- a straight-line or empty block passes through unchanged
          have hmk : isMarkerBlock b = false := isMarkerBlock_eq_false b hloop hend
          rw [marks_cons_other b em rest hmk] at hpre hsum
          obtain ⟨out', houter, hf₂out⟩ := ih rest hrest_len hpre hsum
          have hcond : ¬(¬b.isEmpty = true ∧ b.head? = some Insn.loop) := by
            intro hc
            exact hloop hc.2
          refine ⟨(b, em) :: out', ?_, ?_⟩
          · rw [outerScan_cons_other f b em rest hcond]
            simp only [houter]
          · exact List.Forall₂.cons ⟨rfl, by simp [Patched, hmk]⟩ hf₂out

/-! ### Shape of the frontend's blocks -/

/-- A block with no loop markers in it. -/
def PureB (b : Block) : Prop := ∀ i ∈ b, isMarker i = false

/-- Every block the frontend builds is either exactly `[Loop]`, exactly
`[EndLoop]`, or marker-free. -/
def CleanB (b : Block) : Prop :=
  b = [Insn.loop] ∨ b = [Insn.endLoop] ∨ PureB b

theorem pureB_append (a b : Block) (ha : PureB a) (hb : PureB b) : PureB (a ++ b) := by
  intro i hi
  rcases List.mem_append.mp hi with h | h
  · exact ha i h
  · exact hb i h

theorem pureB_foldAddSub (t : Int) : PureB (foldAddSub t) := by
  intro i hi
  by_cases h0 : t = 0
  · simp [foldAddSub, h0] at hi
  · by_cases h1 : 0 < t
    · simp [foldAddSub, h0, h1] at hi
      subst hi; rfl
    · simp [foldAddSub, h0, h1] at hi
      subst hi; rfl

theorem pureB_foldShift (t : Int) : PureB (foldShift t) := by
  intro i hi
  by_cases h0 : t = 0
  · simp [foldShift, h0] at hi
  · by_cases h1 : 0 < t
    · simp [foldShift, h0, h1] at hi
      subst hi; rfl
    · simp [foldShift, h0, h1] at hi
      subst hi; rfl

theorem buildAux_clean :
    ∀ fuel (code : List Char) (cur : Block) (done : Program),
      (∀ b ∈ done, CleanB b) → PureB cur →
      ∀ b ∈ buildAux fuel code cur done, CleanB b := by
  intro fuel
  induction fuel with
  | zero =>
    intro code cur done hdone hcur b hb
    simp [buildAux] at hb
    rcases hb with h | h
    · exact hdone b h
    · subst h; exact Or.inr (Or.inr hcur)
  | succ f ih =>
    intro code cur done hdone hcur b hb
    match code with
    | [] =>
      simp [buildAux] at hb
      rcases hb with h | h
      · exact hdone b h
      · subst h; exact Or.inr (Or.inr hcur)
    | c :: rest =>
      simp only [buildAux] at hb
      split_ifs at hb
      · exact ih _ _ _ hdone
          (pureB_append _ _ hcur (pureB_foldAddSub _)) b hb
      · exact ih _ _ _ hdone
          (pureB_append _ _ hcur (pureB_foldShift _)) b hb
      · refine ih _ _ _ hdone (pureB_append _ _ hcur ?_) b hb
        intro i hi
        simp at hi
        subst hi; rfl
      · refine ih _ _ _ hdone (pureB_append _ _ hcur ?_) b hb
        intro i hi
        simp at hi
        subst hi; rfl
      · refine ih _ _ _ ?_ (fun i hi => by simp at hi) b hb
        intro b' hb'
        rcases List.mem_append.mp hb' with h | h
        · exact hdone b' h
        · rcases List.mem_cons.mp h with rfl | h
          · exact Or.inr (Or.inr hcur)
          · rcases List.mem_cons.mp h with rfl | h
            · exact Or.inl rfl
            · simp at h
      · refine ih _ _ _ ?_ (fun i hi => by simp at hi) b hb
        intro b' hb'
        rcases List.mem_append.mp hb' with h | h
        · exact hdone b' h
        · rcases List.mem_cons.mp h with rfl | h
          · exact Or.inr (Or.inr hcur)
          · rcases List.mem_cons.mp h with rfl | h
            · exact Or.inr (Or.inl rfl)
            · simp at h
      · exact ih _ _ _ hdone hcur b hb

theorem blocksOf_clean (code : List Char) : ∀ b ∈ blocksOf code, CleanB b :=
  buildAux_clean _ code [] [] (by intro b hb; simp at hb) (by intro i hi; simp at hi)

theorem isMarkerBlock_false_of_pure (b : Block) (h : PureB b) :
    isMarkerBlock b = false := by
  match hb : b with
  | [] => rfl
  | i :: l =>
    have := h i (by simp)
    match i, this with
    | Insn.add v, _ => rfl
    | Insn.sub v, _ => rfl
    | Insn.right v, _ => rfl
    | Insn.left v, _ => rfl
    | Insn.write, _ => rfl
    | Insn.read, _ => rfl

theorem markersOfI_nil_of_pure (b : Block) (h : PureB b) : markersOfI b = [] := by
  induction b with
  | nil => rfl
  | cons i l ih =>
    rw [markersOfI_cons_nonmarker i l (h i (by simp))]
    exact ih (fun j hj => h j (by simp [hj]))

/-- For the clean blocks the frontend builds, the marker sequence seen by
jump resolution (one marker per marker block) is exactly the marker
subsequence of the flattened instructions seen by `validate_loops`. -/
theorem pairProg_cons (b : Block) (prog' : Program) :
    pairProg (b :: prog') = (b, blockEmitter b) :: pairProg prog' := rfl

theorem marks_pairProg_of_clean :
    ∀ (prog : Program), (∀ b ∈ prog, CleanB b) →
      marks (pairProg prog) = markersOfI prog.flatten := by
  intro prog
  induction prog with
  | nil => intro _; rfl
  | cons b prog' ih =>
    intro hclean
    have hb := hclean b (by simp)
    have hrest : ∀ b' ∈ prog', CleanB b' := fun b' hb' => hclean b' (by simp [hb'])
    have hstep : markersOfI (b :: prog').flatten =
        markersOfI b ++ markersOfI prog'.flatten := by
      rw [List.flatten_cons, markersOfI_append]
    rcases hb with rfl | hb2
    · rw [hstep, pairProg_cons,
        marks_cons_loop [Insn.loop] (blockEmitter [Insn.loop]) (pairProg prog') rfl,
        ih hrest]
      rfl
    · rcases hb2 with rfl | hpure
      · rw [hstep, pairProg_cons,
          marks_cons_endLoop [Insn.endLoop] (blockEmitter [Insn.endLoop])
            (pairProg prog') rfl,
          ih hrest]
        rfl
      · rw [hstep, markersOfI_nil_of_pure b hpure, pairProg_cons,
          marks_cons_other b (blockEmitter b) (pairProg prog')
            (isMarkerBlock_false_of_pure b hpure),
          ih hrest]
        rfl

/-- The marker sequence jump resolution sees for a compiled source is the
source's bracket sequence. -/
theorem marks_pairProg_blocksOf (code : List Char) :
    marks (pairProg (blocksOf code)) = bracketMarks code := by
  rw [marks_pairProg_of_clean (blocksOf code) (blocksOf_clean code)]
  have h1 : (blocksOf code).flatten = insnsOf code := rfl
  rw [h1, insnsOf_eq_scanTop, markersOfI_scanTop]

theorem forall₂_patched_get :
    ∀ {a b : List (Block × Buf)}, List.Forall₂ Patched a b →
      ∀ i (h1 : i < a.length) (h2 : i < b.length),
        Patched (a.get ⟨i, h1⟩) (b.get ⟨i, h2⟩) := by
  intro a b h
  induction h with
  | nil => intro i h1; simp at h1
  | cons hx hrest ih =>
    intro i h1 h2
    match i with
    | 0 => exact hx
    | i + 1 => exact ih i (by simpa using h1) (by simpa using h2)

/-! ### Bridges from string-level bracket conditions to the pipeline -/

theorem validateLoops_blocksOf (code : List Char) :
    validateLoops (blocksOf code) = validateAux (bracketMarks code) 0 := by
  rw [validateLoops, validateAux_markers]
  have h1 : (blocksOf code).flatten = insnsOf code := rfl
  rw [h1, insnsOf_eq_scanTop, markersOfI_scanTop]

theorem compile_program_eq (code : List Char) :
    compile_program code =
      match validateAux (bracketMarks code) 0 with
      | some e => Except.error e
      | none => Except.ok (blocksOf code) := by
  rw [compile_program, validateLoops_blocksOf]

/-- A prefix with excess `]` forces the unmatched-`]` error. -/
theorem compile_program_close_err (code p q : List Char) (hc : code = p ++ q)
    (hcount : p.count '[' < p.count ']') :
    compile_program code = Except.error ParseError.unmatchedClose := by
  have herr : validateAux (bracketMarks code) 0 = some ParseError.unmatchedClose := by
    apply validateAux_close_err (bracketMarks code) 0 le_rfl
    refine ⟨bracketMarks p, bracketMarks q, by rw [hc, bracketMarks_append], ?_⟩
    rw [sumDelta_bracketMarks]
    omega
  rw [compile_program_eq, herr]

/-- With no bad prefix but an excess of `[` overall, the unmatched-`[` error. -/
theorem compile_program_open_err (code : List Char)
    (hpre : ∀ p q, code = p ++ q → p.count ']' ≤ p.count '[')
    (hcount : code.count ']' < code.count '[') :
    compile_program code = Except.error ParseError.unmatchedOpen := by
  have herr : validateAux (bracketMarks code) 0 = some ParseError.unmatchedOpen := by
    apply validateAux_open_err (bracketMarks code) 0
    · intro m₁ m₂ hm
      obtain ⟨p, q, rfl, h1, _⟩ := filterMap_split _ code m₁ m₂ hm
      have h1' : bracketMarks p = m₁ := h1
      rw [← h1', sumDelta_bracketMarks]
      have := hpre p q rfl
      omega
    · rw [sumDelta_bracketMarks]
      omega
  rw [compile_program_eq, herr]

/-- Balanced brackets pass validation. -/
theorem compile_program_balanced_ok (code : List Char)
    (hpre : ∀ p q, code = p ++ q → p.count ']' ≤ p.count '[')
    (heq : code.count '[' = code.count ']') :
    compile_program code = Except.ok (blocksOf code) := by
  have hok : validateAux (bracketMarks code) 0 = none := by
    apply validateAux_ok (bracketMarks code) 0
    · intro m₁ m₂ hm
      obtain ⟨p, q, rfl, h1, _⟩ := filterMap_split _ code m₁ m₂ hm
      have h1' : bracketMarks p = m₁ := h1
      rw [← h1', sumDelta_bracketMarks]
      have := hpre p q rfl
      omega
    · rw [sumDelta_bracketMarks]
      omega
  rw [compile_program_eq, hok]

/-- Balanced brackets give a depth-balanced marker sequence for resolution. -/
theorem bracketMarks_balanced (code : List Char)
    (hpre : ∀ p q, code = p ++ q → p.count ']' ≤ p.count '[')
    (heq : code.count '[' = code.count ']') :
    (∀ m₁ m₂, bracketMarks code = m₁ ++ m₂ → 0 ≤ sumDelta m₁) ∧
      sumDelta (bracketMarks code) = 0 := by
  constructor
  · intro m₁ m₂ hm
    obtain ⟨p, q, rfl, h1, _⟩ := filterMap_split _ code m₁ m₂ hm
    have h1' : bracketMarks p = m₁ := h1
    rw [← h1', sumDelta_bracketMarks]
    have := hpre p q rfl
    omega
  · rw [sumDelta_bracketMarks]
    omega

/-- Balanced brackets make jump resolution succeed, patching exactly the
marker-block buffers. -/
theorem emit_jumps_balanced (code : List Char)
    (hpre : ∀ p q, code = p ++ q → p.count ']' ≤ p.count '[')
    (heq : code.count '[' = code.count ']') :
    ∃ out, emit_jumps (pairProg (blocksOf code)) = some out ∧
      List.Forall₂ Patched (pairProg (blocksOf code)) out := by
  have hbal := bracketMarks_balanced code hpre heq
  exact outerScan_spec ((pairProg (blocksOf code)).length + 1)
    (pairProg (blocksOf code)) (by omega)
    (by rw [marks_pairProg_blocksOf]; exact hbal.1)
    (by rw [marks_pairProg_blocksOf]; exact hbal.2)

theorem jitCompileCode_of_emit (prog : Program) (resolved : List (Block × Buf))
    (h : emit_jumps (pairProg prog) = some resolved) :
    jitCompileCode prog =
      some (List.flatten (compile_setup :: (resolved.map Prod.snd ++ [compile_cleanup]))) := by
  rw [jitCompileCode, h]

theorem isShift_false_of_addsub (c : Char) (h : isAddOrSub c = true) :
    isShift c = false := by
  rcases (by simpa [isAddOrSub] using h : c = '+' ∨ c = '-') with rfl | rfl <;> decide

theorem isAddOrSub_false_of_shift (c : Char) (h : isShift c = true) :
    isAddOrSub c = false := by
  rcases (by simpa [isShift] using h : c = '<' ∨ c = '>') with rfl | rfl <;> decide

theorem compile_program_ok_inv (code : List Char) (prog : Program)
    (h : compile_program code = Except.ok prog) : prog = blocksOf code := by
  rw [compile_program] at h
  rcases hv : validateLoops (blocksOf code) with _ | e
  · rw [hv] at h
    simpa using h.symm
  · rw [hv] at h
    simp at h

/-! ### The claims -/

/-- C1: Folding correctness of the frontend: the instructions of the
produced `Program` are the flattened scan; for every maximal run of `k` `+`
and `j` `-` characters in any interleaving, the frontend emits exactly one
`Add(k-j)` when `k > j`, exactly one `Sub(j-k)` when `j > k`, and nothing
when `k = j`; the analogous property holds for `>`/`<` runs producing
`Right`/`Left`; and every counted instruction carries a count of at
least 1. -/
theorem spec2proof_C1_folding :
    (∀ (code : List Char) (prog : Program),
        compile_program code = Except.ok prog → prog.flatten = insnsOf code) ∧
    (∀ (p r s : List Char), r ≠ [] → (∀ c ∈ r, isAddOrSub c = true) →
        classAS p.getLast? = false → classAS s.head? = false →
        insnsOf (p ++ r ++ s) =
          insnsOf p ++
            (if r.count '-' < r.count '+' then
                [Insn.add ((r.count '+' : Int) - (r.count '-' : Int))]
              else if r.count '+' < r.count '-' then
                [Insn.sub ((r.count '-' : Int) - (r.count '+' : Int))]
              else []) ++ insnsOf s) ∧
    (∀ (p r s : List Char), r ≠ [] → (∀ c ∈ r, isShift c = true) →
        classSh p.getLast? = false → classSh s.head? = false →
        insnsOf (p ++ r ++ s) =
          insnsOf p ++
            (if r.count '<' < r.count '>' then
                [Insn.right ((r.count '>' : Int) - (r.count '<' : Int))]
              else if r.count '>' < r.count '<' then
                [Insn.left ((r.count '<' : Int) - (r.count '>' : Int))]
              else []) ++ insnsOf s) ∧
    (∀ (code : List Char) (v : Int),
        (Insn.add v ∈ insnsOf code ∨ Insn.sub v ∈ insnsOf code ∨
          Insn.right v ∈ insnsOf code ∨ Insn.left v ∈ insnsOf code) → 1 ≤ v) := by
  refine ⟨?_, ?_, ?_, ?_⟩
  · intro code prog h
    rw [compile_program_ok_inv code prog h]
    rfl
  · intro p r s hne hall hp hs
    have hheadr : (r ++ s).head? = r.head? := List.head?_append_of_ne_nil r hne
    have hrsafe : runSafe p (r ++ s) := by
      constructor
      · simp [hp]
      · match r, hne with
        | c :: r', _ =>
          have hc := hall c (by simp)
          simp only [List.cons_append, List.head?_cons]
          simp [classSh, isShift_false_of_addsub c hc]
    rw [insnsOf_eq_scanTop, insnsOf_eq_scanTop, insnsOf_eq_scanTop,
      List.append_assoc, scanTop_append p (r ++ s) hrsafe,
      scanTop_run_addsub r s hne hall hs,
      addSubTotal_count r hall]
    have hfold : foldAddSub ((r.count '+' : Int) - (r.count '-' : Int)) =
        (if r.count '-' < r.count '+' then
            [Insn.add ((r.count '+' : Int) - (r.count '-' : Int))]
          else if r.count '+' < r.count '-' then
            [Insn.sub ((r.count '-' : Int) - (r.count '+' : Int))]
          else []) := by
      rcases Nat.lt_trichotomy (r.count '-') (r.count '+') with h | h | h
      · rw [foldAddSub, if_neg (by omega), if_pos (by omega), if_pos h]
      · rw [foldAddSub, if_pos (by omega), if_neg (by omega), if_neg (by omega)]
      · rw [foldAddSub, if_neg (by omega), if_neg (by omega), if_neg (by omega),
          if_pos h]
        congr 2
        omega
    rw [hfold]
    simp
  · intro p r s hne hall hp hs
    have hheadr : (r ++ s).head? = r.head? := List.head?_append_of_ne_nil r hne
    have hrsafe : runSafe p (r ++ s) := by
      constructor
      · match r, hne with
        | c :: r', _ =>
          have hc := hall c (by simp)
          simp only [List.cons_append, List.head?_cons]
          simp [classAS, isAddOrSub_false_of_shift c hc]
      · simp [hp]
    rw [insnsOf_eq_scanTop, insnsOf_eq_scanTop, insnsOf_eq_scanTop,
      List.append_assoc, scanTop_append p (r ++ s) hrsafe,
      scanTop_run_shift r s hne hall hs,
      shiftTotal_count r hall]
    have hfold : foldShift ((r.count '>' : Int) - (r.count '<' : Int)) =
        (if r.count '<' < r.count '>' then
            [Insn.right ((r.count '>' : Int) - (r.count '<' : Int))]
          else if r.count '>' < r.count '<' then
            [Insn.left ((r.count '<' : Int) - (r.count '>' : Int))]
          else []) := by
      rcases Nat.lt_trichotomy (r.count '<') (r.count '>') with h | h | h
      · rw [foldShift, if_neg (by omega), if_pos (by omega), if_pos h]
      · rw [foldShift, if_pos (by omega), if_neg (by omega), if_neg (by omega)]
      · rw [foldShift, if_neg (by omega), if_neg (by omega), if_neg (by omega),
          if_pos h]
        congr 2
        omega
    rw [hfold]
    simp
  · intro code v h
    rw [insnsOf_eq_scanTop] at h
    rcases h with h | h | h | h <;>
      simpa [insnCount] using scanAux_count_ge_one (code.length + 1) code _ h

/-- C1 witness: a concrete maximal `++-` run folds to a single `Add(1)`,
and a concrete `>><`-run folds to a single `Right(1)`. -/
theorem spec2proof_C1_witness :
    insnsOf ['+', '+', '-'] = [Insn.add 1] ∧
      insnsOf ['>', '>', '<'] = [Insn.right 1] := by
  constructor
  · have h := spec2proof_C1_folding.2.1 [] ['+', '+', '-'] []
      (by decide) (by decide) (by decide) (by decide)
    simpa using h
  · have h := spec2proof_C1_folding.2.2.1 [] ['>', '>', '<'] []
      (by decide) (by decide) (by decide) (by decide)
    simpa using h

/-- C10: bytes outside the eight-symbol set are silently skipped, never
cause an error, never produce an instruction, and terminate a fold run:
removing such a byte leaves the instruction sequence unchanged except that
the byte no longer separates runs, the validation outcome is the same as
for the string with the byte removed, and `"+x+"` parses to
`Add(1), Add(1)` rather than `Add(2)`. -/
theorem spec2proof_C10_skip :
    (∀ (c : Char), c ∉ ['+', '-', '>', '<', '[', ']', '.', ','] →
      ∀ (p s : List Char),
        insnsOf (p ++ c :: s) = insnsOf p ++ insnsOf s) ∧
    (∀ (c : Char), c ∉ ['+', '-', '>', '<', '[', ']', '.', ','] →
      ∀ (p s : List Char),
        validateLoops (blocksOf (p ++ c :: s)) = validateLoops (blocksOf (p ++ s))) ∧
    insnsOf ['+', 'x', '+'] = [Insn.add 1, Insn.add 1] := by
  refine ⟨?_, ?_, by decide⟩
  · intro c hc p s
    have hprops : isAddOrSub c = false ∧ isShift c = false ∧ ¬c = '.' ∧ ¬c = ',' ∧
        ¬c = '[' ∧ ¬c = ']' := by
      simp only [List.mem_cons, List.mem_singleton] at hc
      push_neg at hc
      obtain ⟨h1, h2, h3, h4, h5, h6, h7, h8, -⟩ := hc
      refine ⟨by simp [isAddOrSub, h1, h2], by simp [isShift, h3, h4], h7, h8, h5, h6⟩
    obtain ⟨hAS, hSh, hdot, hcomma, hopen, hclose⟩ := hprops
    have hsafe : runSafe p (c :: s) := by
      constructor
      · simp [classAS, hAS]
      · simp [classSh, hSh]
    rw [insnsOf_eq_scanTop, insnsOf_eq_scanTop, insnsOf_eq_scanTop,
      scanTop_append p (c :: s) hsafe,
      scanTop_skip c s hAS hSh hdot hcomma hopen hclose]
  · intro c hc p s
    have hno : ¬c = '[' ∧ ¬c = ']' := by
      simp only [List.mem_cons, List.mem_singleton] at hc
      push_neg at hc
      exact ⟨hc.2.2.2.2.1, hc.2.2.2.2.2.1⟩
    rw [validateLoops_blocksOf, validateLoops_blocksOf, bracketMarks_append,
      bracketMarks_append, bracketMarks_cons_other c s hno.1 hno.2]

/-- C10 witness: a non-instruction byte splits a fold run and changes
neither the error status nor anything else. -/
theorem spec2proof_C10_witness :
    insnsOf ['+', 'x', '+'] = insnsOf ['+'] ++ insnsOf ['+'] ∧
      validateLoops (blocksOf ['[', 'x', ']']) = validateLoops (blocksOf ['[', ']']) := by
  constructor
  · exact spec2proof_C10_skip.1 'x' (by decide) ['+'] ['+']
  · exact spec2proof_C10_skip.2.1 'x' (by decide) ['['] [']']

/-- C2 (evidence for the displacement bug): for the source `[]` there are no
bytes between the two jump sequences, the `jz` at the `[` block is patched
with forward displacement 0, and the `jnz` at the `]` block is patched with
backward displacement −16 (two's complement `0xFFFFFFF0`), because
`compile_end_loop` adds `emitter.length() + 2` on top of the accumulated
length.  The claimed identity — forward displacement plus the bytes strictly
between the jump sequences plus the 10-byte `]` jump sequence equals the
backward displacement's absolute value — fails: 0 + 0 + 10 ≠ 16. -/
theorem spec2proof_C2_displacement_bug :
    emit_jumps (pairProg (blocksOf ['[', ']'])) =
      some [([], []),
        ([Insn.loop], [0x8A, 0x01, 0x3C, 0x00, 0x0F, 0x84, 0x00, 0x00, 0x00, 0x00]),
        ([], []),
        ([Insn.endLoop], [0x8A, 0x01, 0x3C, 0x00, 0x0F, 0x85, 0xF0, 0xFF, 0xFF, 0xFF]),
        ([], [])] ∧
    imm32val [0x00, 0x00, 0x00, 0x00] = 0 ∧
    imm32val [0xF0, 0xFF, 0xFF, 0xFF] = 2 ^ 32 - 16 ∧
    0 + 0 + 10 ≠ 2 ^ 32 - (2 ^ 32 - 16) := by decide

/-- C3 counterexample: the `Write` sequence does not encode to the 39 bytes
the claim states. -/
theorem spec2proof_C3_counterexample : compile_write.length ≠ 39 := by decide

/-- C3 (amended): the emitter produces exactly
`mov RAX,1; mov RDI,1; mov RSI,RCX; mov RDX,1; mov RBX,RCX; syscall;
mov RCX,RBX` for `Write`, but its total encoded size is 41 bytes
(10+10+3+10+3+2+3), not 39; `Read` is identical with `RAX = 0`, `RDI = 0`
and is likewise 41 bytes. -/
theorem spec2proof_C3_write_encoding :
    compile_write =
      [0x48, 0xB8, 1, 0, 0, 0, 0, 0, 0, 0,
       0x48, 0xBF, 1, 0, 0, 0, 0, 0, 0, 0,
       0x48, 0x89, 0xCE,
       0x48, 0xBA, 1, 0, 0, 0, 0, 0, 0, 0,
       0x48, 0x89, 0xCB,
       0x0F, 0x05,
       0x48, 0x89, 0xD9] ∧
    compile_write.length = 41 ∧
    compile_read =
      [0x48, 0xB8, 0, 0, 0, 0, 0, 0, 0, 0,
       0x48, 0xBF, 0, 0, 0, 0, 0, 0, 0, 0,
       0x48, 0x89, 0xCE,
       0x48, 0xBA, 1, 0, 0, 0, 0, 0, 0, 0,
       0x48, 0x89, 0xCB,
       0x0F, 0x05,
       0x48, 0x89, 0xD9] ∧
    compile_read.length = 41 := by decide

/-- C4 counterexample: for `][[` the total `[` count exceeds the `]` count,
yet compilation fails with the unmatched-`]` error, not the unmatched-`[`
error the claim requires for such inputs. -/
theorem spec2proof_C4_counterexample :
    [']', '[', '['].count ']' < [']', '[', '['].count '[' ∧
    validateLoops (blocksOf [']', '[', '[']) = some ParseError.unmatchedClose ∧
    fullCompile [']', '[', '['] = Except.error ParseError.unmatchedClose ∧
    ¬fullCompile [']', '[', '['] = Except.error ParseError.unmatchedOpen := by
  refine ⟨by decide, by decide, rfl, ?_⟩
  intro h
  rw [show fullCompile [']', '[', '['] = Except.error ParseError.unmatchedClose
    from rfl] at h
  simp at h

/-- C4 (amended): a prefix with more `]` than `[` always forces the fatal
unmatched-`]` error; when no prefix has excess `]` and the total `[` count
exceeds the `]` count, compilation fails with the fatal unmatched-`[`
error; both errors exit with status 1 ≠ 0 and the pipeline emits no machine
code (its result is the error, not a code buffer). -/
theorem spec2proof_C4_bracket_errors :
    (∀ (code p q : List Char), code = p ++ q → p.count '[' < p.count ']' →
      fullCompile code = Except.error ParseError.unmatchedClose) ∧
    (∀ (code : List Char), (∀ p q, code = p ++ q → p.count ']' ≤ p.count '[') →
      code.count ']' < code.count '[' →
      fullCompile code = Except.error ParseError.unmatchedOpen) ∧
    exitCodeOf ParseError.unmatchedClose ≠ 0 ∧
    exitCodeOf ParseError.unmatchedOpen ≠ 0 := by
  refine ⟨?_, ?_, by decide, by decide⟩
  · intro code p q hc hcount
    have h := compile_program_close_err code p q hc hcount
    simp only [fullCompile, h]
  · intro code hpre hcount
    have h := compile_program_open_err code hpre hcount
    simp only [fullCompile, h]

/-- C4 witness: `]` alone is rejected as unmatched `]`; `[` alone is
rejected as unmatched `[`. -/
theorem spec2proof_C4_witness :
    fullCompile [']'] = Except.error ParseError.unmatchedClose ∧
    fullCompile ['['] = Except.error ParseError.unmatchedOpen := by
  constructor
  · exact spec2proof_C4_bracket_errors.1 [']'] [']'] [] rfl (by decide)
  · refine spec2proof_C4_bracket_errors.2.1 ['['] ?_ (by decide)
    intro p q h
    rcases p with _ | ⟨a, p'⟩
    · simp
    · rcases p' with _ | ⟨b, p''⟩
      · simp only [List.cons_append, List.cons.injEq] at h
        obtain ⟨rfl, -⟩ := h
        decide
      · simp at h

/-- Every split of `[]` has at least as many `[` as `]` in its prefix. -/
theorem bracketPair_splits : ∀ p q : List Char, ['[', ']'] = p ++ q →
    p.count ']' ≤ p.count '[' := by
  intro p q h
  rcases p with _ | ⟨a, p'⟩
  · simp
  · rcases p' with _ | ⟨b, p''⟩
    · simp only [List.cons_append, List.cons.injEq] at h
      obtain ⟨rfl, -⟩ := h
      decide
    · rcases p'' with _ | ⟨c, p₃⟩
      · simp only [List.cons_append, List.cons.injEq] at h
        obtain ⟨rfl, rfl, -⟩ := h
        decide
      · simp at h

/-- C5: every input with balanced brackets compiles: parsing succeeds and
jump resolution completes without ever reaching the fatal fall-through
branch, producing a machine-code image. -/
theorem spec2proof_C5_balanced_compiles :
    ∀ (code : List Char),
      (∀ p q, code = p ++ q → p.count ']' ≤ p.count '[') →
      code.count '[' = code.count ']' →
      ∃ prog out bytes, compile_program code = Except.ok prog ∧
        emit_jumps (pairProg prog) = some out ∧
        jitCompileCode prog = some bytes := by
  intro code hpre heq
  obtain ⟨out, hout, -⟩ := emit_jumps_balanced code hpre heq
  exact ⟨blocksOf code, out,
    List.flatten (compile_setup :: (out.map Prod.snd ++ [compile_cleanup])),
    compile_program_balanced_ok code hpre heq, hout,
    jitCompileCode_of_emit _ out hout⟩

/-- C5 witness: the balanced program `[]` passes the whole pipeline. -/
theorem spec2proof_C5_witness :
    compile_program ['[', ']'] = Except.ok (blocksOf ['[', ']']) ∧
    emit_jumps (pairProg (blocksOf ['[', ']'])) ≠ none := by
  obtain ⟨prog, out, bytes, h1, h2, h3⟩ :=
    spec2proof_C5_balanced_compiles ['[', ']'] bracketPair_splits (by decide)
  have hprog : prog = blocksOf ['[', ']'] := compile_program_ok_inv _ _ h1
  subst hprog
  exact ⟨h1, by rw [h2]; simp⟩

/-- C6: the final image is exactly the prologue buffer (`mov RCX, RDI`,
bytes `48 89 F9`), followed by every per-block buffer in block order,
followed by the epilogue buffer (`mov RAX, 0; ret`,
bytes `48 B8 00×8 C3`), with no other bytes. -/
theorem spec2proof_C6_linker_layout :
    ∀ (prog : Program) (resolved : List (Block × Buf)),
      emit_jumps (pairProg prog) = some resolved →
      jitCompileCode prog =
        some ([0x48, 0x89, 0xF9] ++ (resolved.map Prod.snd).flatten ++
          [0x48, 0xB8, 0, 0, 0, 0, 0, 0, 0, 0, 0xC3]) := by
  intro prog resolved h
  rw [jitCompileCode_of_emit prog resolved h]
  have hs : compile_setup = [0x48, 0x89, 0xF9] := by decide
  have hc : compile_cleanup = [0x48, 0xB8, 0, 0, 0, 0, 0, 0, 0, 0, 0xC3] := by decide
  rw [List.flatten_cons, List.flatten_append, hs, hc]
  simp

/-- C6 witness: a one-block program's image is prologue, block code,
epilogue, and nothing else. -/
theorem spec2proof_C6_witness :
    jitCompileCode [[Insn.add 1]] =
      some [0x48, 0x89, 0xF9, 0x8A, 0x01, 0x04, 0x01, 0x88, 0x01,
        0x48, 0xB8, 0, 0, 0, 0, 0, 0, 0, 0, 0xC3] := by
  have h := spec2proof_C6_linker_layout [[Insn.add 1]]
    [([Insn.add 1], [0x8A, 0x01, 0x04, 0x01, 0x88, 0x01])] (by decide)
  rw [h]
  decide

/-- A clean block that holds a marker is exactly a marker singleton. -/
theorem marker_block_of_clean (b : Block) (hclean : CleanB b)
    (hm : Insn.loop ∈ b ∨ Insn.endLoop ∈ b) :
    b = [Insn.loop] ∨ b = [Insn.endLoop] := by
  rcases hclean with rfl | rfl | hpure
  · exact Or.inl rfl
  · exact Or.inr rfl
  · exfalso
    rcases hm with hm | hm
    · have := hpure Insn.loop hm
      simp [isMarker] at this
    · have := hpure Insn.endLoop hm
      simp [isMarker] at this

/-- C7: for a balanced source, every block holding a `Loop` or `EndLoop`
marker has an empty buffer after stage 4, and after jump resolution its
buffer is exactly one jump sequence of 10 bytes — settling the spec's
"9 bytes" parenthetical against its own `2+2+6` arithmetic in favour
of 10. -/
theorem spec2proof_C7_marker_buffers :
    ∀ (code : List Char),
      (∀ p q, code = p ++ q → p.count ']' ≤ p.count '[') →
      code.count '[' = code.count ']' →
      (∀ b ∈ blocksOf code, (Insn.loop ∈ b ∨ Insn.endLoop ∈ b) →
        blockEmitter b = []) ∧
      ((e_mov_deref al rcx).length = 2 ∧ (e_cmp_al 0).length = 2 ∧
        (e_jz 0).length = 6 ∧ (e_jnz 0).length = 6 ∧
        (compile_loop 0 []).length = 10 ∧ (compile_end_loop 0 []).length = 10) ∧
      ∃ out, emit_jumps (pairProg (blocksOf code)) = some out ∧
        out.length = (blocksOf code).length ∧
        ∀ i (hi : i < (blocksOf code).length) (ho : i < out.length),
          (Insn.loop ∈ (blocksOf code).get ⟨i, hi⟩ ∨
            Insn.endLoop ∈ (blocksOf code).get ⟨i, hi⟩) →
          ((out.get ⟨i, ho⟩).2).length = 10 := by
  intro code hpre heq
  have hempty : ∀ b ∈ blocksOf code, (Insn.loop ∈ b ∨ Insn.endLoop ∈ b) →
      blockEmitter b = [] := by
    intro b hb hm
    rcases marker_block_of_clean b (blocksOf_clean code b hb) hm with rfl | rfl
    · rfl
    · rfl
  refine ⟨hempty, by decide, ?_⟩
  obtain ⟨out, hout, hf₂⟩ := emit_jumps_balanced code hpre heq
  have hlenpp : (pairProg (blocksOf code)).length = (blocksOf code).length := by
    simp [pairProg]
  refine ⟨out, hout, by rw [← hf₂.length_eq, hlenpp], ?_⟩
  intro i hi ho hm
  have hip : i < (pairProg (blocksOf code)).length := by omega
  have hpt := forall₂_patched_get hf₂ i hip ho
  have hget : (pairProg (blocksOf code)).get ⟨i, hip⟩ =
      ((blocksOf code).get ⟨i, hi⟩,
        blockEmitter ((blocksOf code).get ⟨i, hi⟩)) := by
    simp [pairProg, List.get_eq_getElem, List.getElem_map]
  rw [hget] at hpt
  obtain ⟨-, hlen⟩ := hpt
  have hb := (blocksOf code).get_mem i hi
  rcases marker_block_of_clean _ (blocksOf_clean code _ hb) hm with hbm | hbm
  · rw [hbm] at hlen
    simpa [isMarkerBlock, blockEmitter, process_instruction] using hlen
  · rw [hbm] at hlen
    simpa [isMarkerBlock, blockEmitter, process_instruction] using hlen

/-- C7 witness: in the compiled `[]`, the marker blocks have empty stage-4
buffers and jump resolution succeeds. -/
theorem spec2proof_C7_witness :
    blockEmitter [Insn.loop] = [] ∧ blockEmitter [Insn.endLoop] = [] ∧
    (compile_loop 0 []).length = 10 ∧
    emit_jumps (pairProg (blocksOf ['[', ']'])) ≠ none := by
  obtain ⟨h1, h2, out, hout, hlen, hget⟩ :=
    spec2proof_C7_marker_buffers ['[', ']'] bracketPair_splits (by decide)
  refine ⟨h1 [Insn.loop] (by decide) (Or.inl (by decide)),
    h1 [Insn.endLoop] (by decide) (Or.inr (by decide)),
    h2.2.2.2.2.1, by rw [hout]; simp⟩

/-- C8: a run of `n > 255` consecutive `+` folds to a single `Add(n)`
carrying the full count — no splitting into chunks — and the 8-bit
immediate byte emitted for it is `n mod 256`: the count is silently
truncated at emission. -/
theorem spec2proof_C8_truncation :
    ∀ n : Nat, 255 < n →
      insnsOf (List.replicate n '+') = [Insn.add (n : Int)] ∧
      compile_add (n : Int) = [0x8A, 0x01, 0x04, n % 256, 0x88, 0x01] ∧
      n % 256 ≠ n := by
  intro n hn
  refine ⟨?_, ?_, ?_⟩
  · match n, hn with
    | n + 1, hn =>
      have hall : ∀ c ∈ List.replicate n '+', isAddOrSub c = true := by
        intro c hc
        rw [List.eq_of_mem_replicate hc]
        decide
      have htake := takeWhile_append_of_all (p := isAddOrSub) (List.replicate n '+') []
        hall
      have htotal : addSubTotal ('+' :: List.replicate n '+') = (n : Int) + 1 := by
        have hall' : ∀ c ∈ '+' :: List.replicate n '+', isAddOrSub c = true := by
          intro c hc
          rcases List.mem_cons.mp hc with rfl | hc
          · decide
          · exact hall c hc
        rw [addSubTotal_count _ hall']
        simp [List.count_cons, List.count_replicate]
      have hrep : List.replicate (n + 1) '+' = '+' :: List.replicate n '+' := rfl
      rw [insnsOf_eq_scanTop, hrep, scanTop_addsub '+' _ (by decide)]
      have ht : (List.replicate n '+').takeWhile isAddOrSub = List.replicate n '+' := by
        have := htake.1
        simpa using this
      have hd : (List.replicate n '+').dropWhile isAddOrSub = [] := by
        have := htake.2
        simpa using this
      rw [ht, hd, htotal, scanTop_nil, foldAddSub,
        if_neg (by omega), if_pos (by omega)]
      simp
  · have hb : ((n : Int) % 256).toNat = n % 256 := by omega
    simp [compile_add, e_mov_deref, e_al_add, e_deref_mov, imm8bytes, hb, al, rcx]
  · have : n % 256 < 256 := Nat.mod_lt _ (by norm_num)
    omega

/-- C8 witness: 300 consecutive `+` give a single `Add(300)` whose emitted
immediate byte is 44 = 300 mod 256. -/
theorem spec2proof_C8_witness :
    insnsOf (List.replicate 300 '+') = [Insn.add 300] ∧
    compile_add 300 = [0x8A, 0x01, 0x04, 44, 0x88, 0x01] ∧
    300 % 256 ≠ 300 := by
  have h := spec2proof_C8_truncation 300 (by norm_num)
  refine ⟨?_, ?_, h.2.2⟩
  · have h1 := h.1
    norm_num at h1
    exact h1
  · have h2 := h.2.1
    norm_num at h2
    exact h2

/-- C9 counterexample: when `mmap` answers with the `MAP_FAILED` sentinel,
the driver does not abort — it copies the code to the sentinel address and
returns it as the callable function pointer. -/
theorem spec2proof_C9_counterexample :
    (jit_finish MAP_FAILED).fnPtr = MAP_FAILED ∧
    (jit_finish MAP_FAILED).copyDest = MAP_FAILED := by decide

/-- C9 (amended): `allocate_function` performs no `MAP_FAILED` check at all;
whatever address `mmap` returns — the sentinel included — is used as the
`memcpy` destination and returned as the function pointer. -/
theorem spec2proof_C9_no_check :
    ∀ osResult : Int,
      jit_finish osResult = { copyDest := osResult, fnPtr := osResult } := by
  intro osResult
  rfl

end Spec2Proof
